import Mathlib

/- Verification of the data pipeline of `src/app.py` (UIDAI analytics
dashboard): a shallow embedding of its normalization (`normalize`),
row-wise totals (`add_total`), combined-view aggregation (groupby /
outer-merge / fillna / grand total, module level, lines 126-151), and the
date-range filter, together with proofs settling the specification's
claims about them. -/

namespace Uidai

/-- Cell values of a dataframe. A `num` stands for an int64/float64 value,
modelled as an exact rational; a `str` for a Python string; a `date` for a
pandas Timestamp (calendar date; the time of day is unused by the program);
`null` for NaN/NaT/missing. -/
inductive Cell where
  | num (q : ℚ)
  | str (s : String)
  | date (y m d : Nat)
  | null
deriving DecidableEq

/-- A dataframe: named columns and rows of cells; a row `r` has cell `r[i]`
in column `cols[i]`. -/
structure Table where
  cols : List String
  rows : List (List Cell)
deriving DecidableEq

/-- Rectangularity: every row has one cell per column. -/
def Table.WF (t : Table) : Prop := ∀ r ∈ t.rows, r.length = t.cols.length

instance (t : Table) : Decidable t.WF := by
  unfold Table.WF; infer_instance

/-- Pandas `df.empty`: an axis of length zero. -/
def Table.isEmptyDf (t : Table) : Bool := t.rows.isEmpty || t.cols.isEmpty

/-- Index of a column label (first occurrence), `none` when absent. -/
def colIdx (cols : List String) (c : String) : Option Nat :=
  match cols with
  | [] => none
  | x :: xs => if x = c then some 0 else (colIdx xs c).map (· + 1)

/-- Cell of row `r` in column `c` (null when the column is absent). -/
def getCell (cols : List String) (r : List Cell) (c : String) : Cell :=
  match colIdx cols c with
  | some i => r.getD i Cell.null
  | none => Cell.null

/-- Column assignment `df[c] = vals`: overwrite in place, or append a new
column on the right. -/
def setCol (t : Table) (c : String) (vals : List Cell) : Table :=
  match colIdx t.cols c with
  | some i => ⟨t.cols, t.rows.zipWith (fun r v => r.set i v) vals⟩
  | none => ⟨t.cols ++ [c], t.rows.zipWith (fun r v => r ++ [v]) vals⟩

/-- Column transformation `df[c] = f(df[c])`, applied cellwise in place. -/
def mapCol (t : Table) (c : String) (f : Cell → Cell) : Table :=
  match colIdx t.cols c with
  | some i => ⟨t.cols, t.rows.map (fun r => r.set i (f (r.getD i Cell.null)))⟩
  | none => t

/-- Python `str.strip` on a character list: drop whitespace at both ends. -/
def trimChars (l : List Char) : List Char :=
  ((l.dropWhile Char.isWhitespace).reverse.dropWhile Char.isWhitespace).reverse

/-- Python `str.strip` on a string. -/
def trimStr (s : String) : String := ⟨trimChars s.data⟩

/-- Replace one character by another, everywhere (Python `str.replace` with a
single-character pattern). -/
def replChar (a b : Char) (s : List Char) : List Char :=
  s.map (fun c => if c = a then b else c)

/-- Column-name cleanup of `normalize` (app.py lines 67-73): strip,
lowercase (ASCII fragment of `str.lower`), then replace spaces and hyphens
by underscores. -/
def cleanName (s : String) : String :=
  ⟨replChar '-' '_' (replChar ' ' '_' ((trimChars s.data).map Char.toLower))⟩

/-- Python `str.replace(".0", "")` (app.py line 81): remove every
non-overlapping occurrence of the two-character pattern, scanning left to
right — not merely a trailing suffix. -/
def dropDot0 : List Char → List Char
  | '.' :: '0' :: rest => dropDot0 rest
  | c :: rest => c :: dropDot0 rest
  | [] => []

/-- String version of `dropDot0`. -/
def stripDot0 (s : String) : String := ⟨dropDot0 s.data⟩

/-- Decimal digits to a natural number. -/
def digitsToNat (l : List Char) : Nat :=
  l.foldl (fun a c => a * 10 + (c.toNat - 48)) 0

/-- Decimal rendering of a natural number (fuel-based so that it reduces). -/
def natDigits (fuel n : Nat) : List Char :=
  match fuel with
  | 0 => []
  | fuel + 1 =>
    if n < 10 then [Nat.digitChar n]
    else natDigits fuel (n / 10) ++ [Nat.digitChar (n % 10)]

/-- Decimal rendering of a natural number. -/
def natToStr (n : Nat) : String := ⟨natDigits (n + 1) n⟩

/-- Decimal rendering of an integer. -/
def intToStr (z : ℤ) : String :=
  if z < 0 then "-" ++ natToStr z.natAbs else natToStr z.natAbs

/-- Two-digit zero-padded rendering of a month or day number. -/
def pad2 (n : Nat) : String := if n < 10 then "0" ++ natToStr n else natToStr n

/-- Split a character list at the first dot, keeping the rest verbatim. -/
def splitAtDot (l : List Char) : List Char × Option (List Char) :=
  match l with
  | [] => ([], none)
  | '.' :: rest => ([], some rest)
  | c :: rest =>
    let p := splitAtDot rest
    (c :: p.1, p.2)

/-- Unsigned decimal numeral: returns numerator and denominator. -/
def parseUnsigned (l : List Char) : Option (Nat × Nat) :=
  match splitAtDot l with
  | (ip, none) =>
    if !ip.isEmpty && ip.all Char.isDigit then some (digitsToNat ip, 1) else none
  | (ip, some fp) =>
    if ip.all Char.isDigit && fp.all Char.isDigit && !(ip.isEmpty && fp.isEmpty) then
      some (digitsToNat ip * 10 ^ fp.length + digitsToNat fp, 10 ^ fp.length)
    else none

/-- Numeric parsing of a string as `pd.to_numeric(errors="coerce")` does
(decimal forms with an optional sign and surrounding whitespace; exponent
and other float syntaxes are not produced by this repository's inputs and
are unmodelled). -/
def parseNum (s : String) : Option ℚ :=
  match trimChars s.data with
  | '-' :: rest => (parseUnsigned rest).map (fun p => mkRat (-(p.1 : ℤ)) p.2)
  | '+' :: rest => (parseUnsigned rest).map (fun p => mkRat (p.1 : ℤ) p.2)
  | l => (parseUnsigned l).map (fun p => mkRat (p.1 : ℤ) p.2)

/-- Days of each month in the Gregorian calendar. -/
def daysInMonth (y m : Nat) : Nat :=
  if m = 2 then (if y % 4 = 0 && (y % 100 != 0 || y % 400 = 0) then 29 else 28)
  else if m = 4 || m = 6 || m = 9 || m = 11 then 30 else 31

/-- Validity of a (year, month, day) triple. -/
def validDate (y m d : Nat) : Bool :=
  decide (1 ≤ m) && decide (m ≤ 12) && decide (1 ≤ d) &&
    decide (d ≤ daysInMonth y m) && decide (1 ≤ y)

/-- Split a character list on `-` and `/` separators. -/
def splitSeps (l : List Char) : List (List Char) :=
  match l with
  | [] => [[]]
  | c :: rest =>
    let r := splitSeps rest
    if c = '-' || c = '/' then [] :: r
    else
      match r with
      | h :: t => (c :: h) :: t
      | [] => [[c]]

/-- Pandas `to_datetime(..., dayfirst=True)` on one string, modelled for the
purely numeric day-first (`D-M-Y`) and ISO (`Y-M-D`) forms with `-` or `/`
separators; pandas accepts further formats, none of which this repository's
inputs produce. -/
def parseDate (s : String) : Option (Nat × Nat × Nat) :=
  match splitSeps (trimChars s.data) with
  | [a, b, c] =>
    if (!a.isEmpty && a.all Char.isDigit) && (!b.isEmpty && b.all Char.isDigit)
        && (!c.isEmpty && c.all Char.isDigit) then
      if a.length = 4 then
        if validDate (digitsToNat a) (digitsToNat b) (digitsToNat c) then
          some (digitsToNat a, digitsToNat b, digitsToNat c)
        else none
      else
        if c.length = 4 && validDate (digitsToNat c) (digitsToNat b) (digitsToNat a) then
          some (digitsToNat c, digitsToNat b, digitsToNat a)
        else none
    else none
  | _ => none

/-- Cellwise `pd.to_datetime(col, errors="coerce", dayfirst=True)` (app.py
line 75). A numeric cell (epoch-nanosecond interpretation in pandas) is not
modelled and maps to null. -/
def toDatetimeCell (c : Cell) : Cell :=
  match c with
  | Cell.date y m d => Cell.date y m d
  | Cell.str s =>
    match parseDate s with
    | some (y, m, d) => Cell.date y m d
    | none => Cell.null
  | Cell.num _ => Cell.null
  | Cell.null => Cell.null

/-- Cellwise `dt.to_period("M").astype(str)` (app.py line 76): the string
"YYYY-MM" for a parsed date, and the literal string "NaT" — not null — for
a missing one. -/
def monthCell (c : Cell) : Cell :=
  match c with
  | Cell.date y m _ => Cell.str (natToStr y ++ "-" ++ pad2 m)
  | _ => Cell.str "NaT"

/-- Cellwise Python/pandas `astype(str)`. A numeric cell prints as a float64
does (integral values carry a trailing ".0"); a date prints ISO; NaN prints
"nan". Non-terminating decimal expansions are rendered crudely — no claim
depends on that case. -/
def astypeStr (c : Cell) : String :=
  match c with
  | Cell.str s => s
  | Cell.null => "nan"
  | Cell.date y m d => natToStr y ++ "-" ++ pad2 m ++ "-" ++ pad2 d
  | Cell.num q =>
    if q.den = 1 then intToStr q.num ++ ".0"
    else intToStr q.num ++ "/" ++ natToStr q.den

/-- Column-name cleanup pass of `normalize` (app.py lines 67-73). -/
def renameCols (t : Table) : Table := ⟨t.cols.map cleanName, t.rows⟩

/-- Date pass of `normalize` (app.py lines 74-76): if a `date` column
exists, coerce it to datetime and derive the `month` column from it. -/
def dateStep (t : Table) : Table :=
  if (colIdx t.cols "date").isSome then
    let ta := mapCol t "date" toDatetimeCell
    setCol ta "month" (ta.rows.map (fun r => monthCell (getCell ta.cols r "date")))
  else t

/-- Text pass of `normalize` for `state`/`district` (app.py lines 77-79):
coerce the column to text and strip surrounding whitespace, if present. -/
def textStep (c : String) (t : Table) : Table :=
  if (colIdx t.cols c).isSome then
    mapCol t c (fun x => Cell.str (trimStr (astypeStr x)))
  else t

/-- Pincode pass of `normalize` (app.py lines 80-81): coerce to text and
remove the occurrences of ".0", if the column is present. -/
def pinStep (t : Table) : Table :=
  if (colIdx t.cols "pincode").isSome then
    mapCol t "pincode" (fun x => Cell.str (stripDot0 (astypeStr x)))
  else t

/-- The `normalize` function (app.py lines 63-82): empty frames pass
through; otherwise clean the column names, parse `date` and derive `month`,
strip `state` and `district` as text, and apply the ".0" removal to
`pincode` as text. -/
def normalize (t : Table) : Table :=
  if t.rows.isEmpty || t.cols.isEmpty then t
  else pinStep (textStep "district" (textStep "state" (dateStep (renameCols t))))

/-- Cellwise `pd.to_numeric(col, errors="coerce")` (app.py line 90). A
datetime cell (epoch nanoseconds in pandas) is not modelled and maps to
null. -/
def toNumericCell (c : Cell) : Cell :=
  match c with
  | Cell.num q => Cell.num q
  | Cell.str s =>
    match parseNum s with
    | some q => Cell.num q
    | none => Cell.null
  | Cell.date _ _ _ => Cell.null
  | Cell.null => Cell.null

/-- Cellwise `.fillna(0)`. -/
def fillZero (c : Cell) : Cell := if c = Cell.null then Cell.num 0 else c

/-- Numeric value of a cell inside a sum (null contributes nothing; a string
cell in a summed column concatenates in pandas, a case the pipeline never
produces, modelled as 0). -/
def cellNum (c : Cell) : ℚ :=
  match c with
  | Cell.num q => q
  | _ => 0

/-- Exact rational addition written through `mkRat`, so that concrete
evaluation reduces in the kernel (`Rat.add` is irreducible); proved equal
to `+` below. -/
def qadd (a b : ℚ) : ℚ :=
  mkRat (a.num * (b.den : ℤ) + b.num * (a.den : ℤ)) (a.den * b.den)

/-- Sum of a list of rationals via `qadd`. -/
def qsum (l : List ℚ) : ℚ := l.foldr qadd 0

/-- Numpy `astype(int)` on a float64 value: truncation toward zero. -/
def truncQ (q : ℚ) : ℤ := Int.tdiv q.num (q.den : ℤ)

/-- An integer-valued numeric cell. -/
def intCell (z : ℤ) : Cell := Cell.num (mkRat z 1)

/-- One pass of the loop body of `add_total` (app.py lines 87-90): create
the column as zero if absent (`df[c] = 0`), then coerce to numeric with
unparsable values as NaN and fill NaN with 0. -/
def coerceStep (t : Table) (c : String) : Table :=
  let t1 :=
    if (colIdx t.cols c).isSome then t
    else setCol t c (List.replicate t.rows.length (intCell 0))
  mapCol t1 c (fun x => fillZero (toNumericCell x))

/-- The `add_total` function (app.py lines 85-92): coerce every expected
column, then write the row-wise integer sum into column `name`. -/
def add_total (t : Table) (cols : List String) (name : String) : Table :=
  let t1 := cols.foldl coerceStep t
  setCol t1 name (t1.rows.map (fun r =>
    intCell (truncQ (qsum (cols.map (fun c => cellNum (getCell t1.cols r c)))))))

/-- The composite key of the combined view (app.py line 134). -/
def keyNames : List String := ["date", "state", "district", "pincode", "month"]

/-- Key tuple of one row. -/
def keyCells (cols : List String) (r : List Cell) (ks : List String) : List Cell :=
  ks.map (fun c => getCell cols r c)

/-- Distinct fully-non-null key tuples of a table, first occurrence kept.
Pandas `groupby(key)` drops every row with a null in any key field
(`dropna=True` is the default); it also sorts the groups, an ordering the
program does not rely on and the model does not reproduce. -/
def tableKeys (t : Table) (ks : List String) : List (List Cell) :=
  ((t.rows.map (fun r => keyCells t.cols r ks)).filter
    (fun k => !k.contains Cell.null)).dedup

/-- Sum of metric column `m` over the rows of `t` whose key tuple is `k`. -/
def sumAt (t : Table) (ks : List String) (k : List Cell) (m : String) : ℚ :=
  qsum ((t.rows.filter (fun r => decide (keyCells t.cols r ks = k))).map
    (fun r => cellNum (getCell t.cols r m)))

/-- Pandas `df.groupby(key, as_index=False)[m].sum()` (app.py lines
136-138): requires the key and metric columns (KeyError otherwise); one
output row per distinct non-null key with the metric summed per group. -/
def groupbySum (t : Table) (ks : List String) (m : String) : Option Table :=
  if ks.all (fun c => (colIdx t.cols c).isSome) && (colIdx t.cols m).isSome then
    some ⟨ks ++ [m], (tableKeys t ks).map (fun k => k ++ [Cell.num (sumAt t ks k m)])⟩
  else none

/-- Pandas `left.merge(right, on=ks, how="outer")` (app.py lines 137-138)
for tables whose columns begin with the key, as the groupby outputs here
do. Unmatched sides are null-filled; a key present on either side appears;
pandas's output ordering, its suffixing of overlapping non-key column names
(none overlap here) and general key-column placement are not needed and
unmodelled. -/
def mergeOuter (a b : Table) (ks : List String) : Option Table :=
  let nk := ks.length
  if a.cols.take nk = ks ∧ b.cols.take nk = ks then
    some ⟨a.cols ++ b.cols.drop nk,
      (a.rows.flatMap (fun ra =>
        match b.rows.filter (fun rb => decide (rb.take nk = ra.take nk)) with
        | [] => [ra ++ List.replicate (b.cols.length - nk) Cell.null]
        | ms => ms.map (fun rb => ra ++ rb.drop nk))) ++
      ((b.rows.filter (fun rb =>
          !(a.rows.any (fun ra => decide (ra.take nk = rb.take nk))))).map
        (fun rb => rb.take nk ++ List.replicate (a.cols.length - nk) Cell.null ++ rb.drop nk))⟩
  else none

/-- Pandas `df.fillna(0)` over the whole frame (app.py line 139). -/
def fillTable (t : Table) : Table := ⟨t.cols, t.rows.map (List.map fillZero)⟩

/-- App.py line 141: `df["total"] = df[[...]].sum(axis=1).astype(int)`;
KeyError when one of the summed columns is missing. -/
def addGrandTotal (t : Table) (cols : List String) (name : String) : Option Table :=
  if cols.all (fun c => (colIdx t.cols c).isSome) then
    some (setCol t name (t.rows.map (fun r =>
      intCell (truncQ (qsum (cols.map (fun c => cellNum (getCell t.cols r c))))))))
  else none

/-- The combined-view aggregation (app.py lines 134-141). -/
def combinedAgg (enr dem bio : Table) : Option Table := do
  let g1 ← groupbySum enr keyNames "enrol"
  let g2 ← groupbySum dem keyNames "demo"
  let g3 ← groupbySum bio keyNames "bio"
  let m1 ← mergeOuter g1 g2 keyNames
  let m2 ← mergeOuter m1 g3 keyNames
  addGrandTotal (fillTable m2) ["enrol", "demo", "bio"] "total"

/-- Expected metric columns of the enrolment category (app.py line 128). -/
def enrolCols : List String := ["age_0_5", "age_5_17", "age_18_greater"]

/-- Expected metric columns of the demographic category (app.py line 130). -/
def demoCols : List String := ["demo_age_5_17", "demo_age_17_"]

/-- Expected metric columns of the biometric category (app.py line 132). -/
def bioCols : List String := ["bio_age_5_17", "bio_age_17_"]

/-- The combined branch of the module-level pipeline (app.py lines
126-141), from the three loaders' raw tables. -/
def combinedPipeline (rawE rawD rawB : Table) : Option Table :=
  combinedAgg (add_total (normalize rawE) enrolCols "enrol")
    (add_total (normalize rawD) demoCols "demo")
    (add_total (normalize rawB) bioCols "bio")

/-- The table a loader yields when none of its files exists (app.py line
60): `pd.DataFrame()`. -/
def emptyTable : Table := ⟨[], []⟩

/-- Lexicographic order on (year, month, day) triples. -/
def dateLe (a b : Nat × Nat × Nat) : Prop :=
  a.1 < b.1 ∨ (a.1 = b.1 ∧ (a.2.1 < b.2.1 ∨ (a.2.1 = b.2.1 ∧ a.2.2 ≤ b.2.2)))

instance (a b : Nat × Nat × Nat) : Decidable (dateLe a b) := by
  unfold dateLe; infer_instance

/-- The inclusive date-range filter (app.py lines 148-151): keep rows whose
date lies in the range; a missing (NaT) date compares false on both bounds
and the row is dropped. Requires a `date` column (KeyError otherwise); the
program applies it after `normalize`, so the column is datetime-typed. -/
def filterDateRange (t : Table) (s e : Nat × Nat × Nat) : Option Table :=
  if (colIdx t.cols "date").isSome then
    some ⟨t.cols, t.rows.filter (fun r =>
      match getCell t.cols r "date" with
      | Cell.date y m d => decide (dateLe s (y, m, d)) && decide (dateLe (y, m, d) e)
      | _ => false)⟩
  else none

/-- Per-character action of the column-name cleanup: lowercase, then map a
space and a hyphen to an underscore (the fused form of the three maps in
`cleanName`). -/
def cleanChar (c : Char) : Char :=
  if (if c.toLower = ' ' then '_' else c.toLower) = '-' then '_'
  else (if c.toLower = ' ' then '_' else c.toLower)

/-- Contribution of expected column `c` to the total of a row `r` of the
original table: the coerced value, with an absent column and an unparsable
cell both contributing 0. -/
def contrib (t : Table) (r : List Cell) (c : String) : ℚ :=
  cellNum (toNumericCell (getCell t.cols r c))

/-- Whether some row of `t` has composite key `k`. -/
def hasKeyRow (t : Table) (k : List Cell) : Prop :=
  ∃ r ∈ t.rows, keyCells t.cols r keyNames = k

instance (t : Table) (k : List Cell) : Decidable (hasKeyRow t k) := by
  unfold hasKeyRow; infer_instance

/-- Union of the three categories' distinct fully-non-null key sets, in the
order the chain of outer merges produces them: enrolment keys, then the
demographic keys not already present, then the biometric keys not already
present. -/
def unionKeys (enr dem bio : Table) : List (List Cell) :=
  (tableKeys enr keyNames ++
    (tableKeys dem keyNames).filter
      (fun k => decide (k ∉ tableKeys enr keyNames))) ++
  (tableKeys bio keyNames).filter (fun k => decide (k ∉
    tableKeys enr keyNames ++
      (tableKeys dem keyNames).filter
        (fun k => decide (k ∉ tableKeys enr keyNames))))

/-- The four metric cells of one combined-output row for key `k`: the three
per-category sums and their grand total. -/
def catSums (enr dem bio : Table) (k : List Cell) : List Cell :=
  [Cell.num (sumAt enr keyNames k "enrol"),
   Cell.num (sumAt dem keyNames k "demo"),
   Cell.num (sumAt bio keyNames k "bio"),
   Cell.num (sumAt enr keyNames k "enrol" + sumAt dem keyNames k "demo" +
     sumAt bio keyNames k "bio")]

/- Concrete tables used to instantiate and to refute the claims. -/

/-- A one-row table whose single expected column holds the float 2.5. -/
def fracT : Table := ⟨["a"], [[Cell.num (mkRat 5 2)]]⟩

/-- A one-row table with an integer metric and an unrelated text cell. -/
def intJunkT : Table := ⟨["a", "x"], [[intCell 3, Cell.str "junk"]]⟩

/-- A one-row table whose single expected column holds -3. -/
def negT : Table := ⟨["a"], [[intCell (-3)]]⟩

/-- A one-row table with a parsable and an unparsable metric cell. -/
def strNumT : Table := ⟨["a", "b"], [[Cell.str "7", Cell.str "oops"]]⟩

/-- A table with a column `add_total` must not touch. -/
def keepT : Table := ⟨["keep", "a"], [[Cell.str "kept", intCell 2]]⟩

/-- A pincode whose ".0"-removal creates a fresh ".0" occurrence. -/
def pinChainT : Table := ⟨["pincode"], [[Cell.str "..00"]]⟩

/-- A pincode with an interior ".0" and no trailing ".0". -/
def pinInnerT : Table := ⟨["pincode"], [[Cell.str "110.05"]]⟩

/-- A raw table in the shape of the repository's CSVs. -/
def rawT : Table :=
  ⟨["Date", "State", "pincode"],
    [[Cell.str "01-01-2024", Cell.str " X ", Cell.str "110001.0"]]⟩

/-- A table whose only date cell is unparsable. -/
def badDateT : Table := ⟨["date", "x"], [[Cell.str "hello", intCell 1]]⟩

/-- Two rows sharing a composite key whose date field is null. -/
def nullKeyT : Table :=
  ⟨keyNames ++ ["m"],
    [[Cell.null, Cell.str "X", Cell.str "A", Cell.str "1", Cell.str "NaT", intCell 3],
     [Cell.null, Cell.str "X", Cell.str "A", Cell.str "1", Cell.str "NaT", intCell 5]]⟩

/-- Two rows sharing a fully non-null composite key, metrics 3 and 5. -/
def dupKeyT : Table :=
  ⟨keyNames ++ ["m"],
    [[Cell.date 2024 1 1, Cell.str "X", Cell.str "A", Cell.str "110001",
      Cell.str "2024-01", intCell 3],
     [Cell.date 2024 1 1, Cell.str "X", Cell.str "A", Cell.str "110001",
      Cell.str "2024-01", intCell 5]]⟩

/-- An enrolment-shaped aggregation input whose only row has a null date. -/
def nullKeyEnrT : Table :=
  ⟨keyNames ++ ["enrol"],
    [[Cell.null, Cell.str "X", Cell.str "A", Cell.str "1", Cell.str "NaT", intCell 3]]⟩

/-- A demographic-shaped aggregation input with no rows. -/
def emptyDemT : Table := ⟨keyNames ++ ["demo"], []⟩

/-- A biometric-shaped aggregation input with no rows. -/
def emptyBioT : Table := ⟨keyNames ++ ["bio"], []⟩

/-- An enrolment-shaped aggregation input, one row, key K, metric 6. -/
def keyEnrT : Table :=
  ⟨keyNames ++ ["enrol"],
    [[Cell.date 2024 1 1, Cell.str "X", Cell.str "A", Cell.str "110001",
      Cell.str "2024-01", intCell 6]]⟩

/-- A demographic-shaped aggregation input, one row, the same key K, metric 4. -/
def keyDemT : Table :=
  ⟨keyNames ++ ["demo"],
    [[Cell.date 2024 1 1, Cell.str "X", Cell.str "A", Cell.str "110001",
      Cell.str "2024-01", intCell 4]]⟩

/- ### Arithmetic helper lemmas -/

theorem qadd_eq (a b : ℚ) : qadd a b = a + b := by
  unfold qadd
  rw [Rat.mkRat_eq_div]
  have ha : (a.den : ℚ) ≠ 0 := Nat.cast_ne_zero.mpr a.den_nz
  have hb : (b.den : ℚ) ≠ 0 := Nat.cast_ne_zero.mpr b.den_nz
  conv_rhs => rw [← Rat.num_div_den a, ← Rat.num_div_den b]
  push_cast
  field_simp

theorem qsum_eq (l : List ℚ) : qsum l = l.sum := by
  induction l with
  | nil => rfl
  | cons x xs ih =>
    show qadd x (qsum xs) = (x :: xs).sum
    rw [qadd_eq, ih, List.sum_cons]

theorem den_one_add {a b : ℚ} (ha : a.den = 1) (hb : b.den = 1) : (a + b).den = 1 := by
  rw [← (Rat.den_eq_one_iff a).mp ha, ← (Rat.den_eq_one_iff b).mp hb, ← Int.cast_add]
  exact Rat.den_intCast _

theorem qsum_den_one {l : List ℚ} (h : ∀ q ∈ l, q.den = 1) : (qsum l).den = 1 := by
  rw [qsum_eq]
  induction l with
  | nil => rfl
  | cons x xs ih =>
    rw [List.sum_cons]
    exact den_one_add (h x (by simp)) (ih (fun q hq => h q (by simp [hq])))

theorem truncQ_of_den_one {q : ℚ} (h : q.den = 1) : truncQ q = q.num := by
  unfold truncQ
  rw [h]
  exact Int.tdiv_one q.num

theorem intCell_num_of_den_one {q : ℚ} (h : q.den = 1) : intCell q.num = Cell.num q := by
  unfold intCell
  rw [← h, Rat.mkRat_self]

theorem intCell_truncQ_of_den_one {q : ℚ} (h : q.den = 1) :
    intCell (truncQ q) = Cell.num q := by
  rw [truncQ_of_den_one h, intCell_num_of_den_one h]

/- ### Column-index helper lemmas -/

theorem colIdx_eq_none_iff (cols : List String) (c : String) :
    colIdx cols c = none ↔ c ∉ cols := by
  induction cols with
  | nil => simp [colIdx]
  | cons x xs ih =>
    by_cases hx : x = c
    · subst hx; simp [colIdx]
    · simp [colIdx, hx, ih, Option.map_eq_none', Ne.symm hx]

theorem colIdx_isSome_iff (cols : List String) (c : String) :
    (colIdx cols c).isSome ↔ c ∈ cols := by
  rw [← Decidable.not_not (p := c ∈ cols), ← colIdx_eq_none_iff]
  cases h : colIdx cols c <;> simp

theorem colIdx_lt {cols : List String} {c : String} {i : Nat}
    (h : colIdx cols c = some i) : i < cols.length := by
  induction cols generalizing i with
  | nil => simp [colIdx] at h
  | cons x xs ih =>
    rw [colIdx] at h
    split at h
    · cases h; simp
    · obtain ⟨j, hj, rfl⟩ := Option.map_eq_some'.mp h
      have := ih hj
      simp only [List.length_cons]
      omega

theorem colIdx_inj {cols : List String} {a b : String} {i : Nat}
    (ha : colIdx cols a = some i) (hb : colIdx cols b = some i) : a = b := by
  induction cols generalizing i with
  | nil => simp [colIdx] at ha
  | cons x xs ih =>
    by_cases hxa : x = a <;> by_cases hxb : x = b
    · exact hxa.symm.trans hxb
    · rw [colIdx, if_pos hxa] at ha
      rw [colIdx, if_neg hxb] at hb
      cases ha
      obtain ⟨j, _, hj⟩ := Option.map_eq_some'.mp hb
      omega
    · rw [colIdx, if_neg hxa] at ha
      rw [colIdx, if_pos hxb] at hb
      cases hb
      obtain ⟨j, _, hj⟩ := Option.map_eq_some'.mp ha
      omega
    · rw [colIdx, if_neg hxa] at ha
      rw [colIdx, if_neg hxb] at hb
      obtain ⟨j1, hj1, he1⟩ := Option.map_eq_some'.mp ha
      obtain ⟨j2, hj2, he2⟩ := Option.map_eq_some'.mp hb
      have hje : j1 = j2 := by omega
      exact ih hj1 (hje ▸ hj2)

theorem colIdx_append_left {l1 : List String} {c : String} (l2 : List String)
    (h : c ∈ l1) : colIdx (l1 ++ l2) c = colIdx l1 c := by
  induction l1 with
  | nil => simp at h
  | cons x xs ih =>
    by_cases hx : x = c
    · simp [colIdx, hx]
    · have hc : c ∈ xs := by
        rcases List.mem_cons.mp h with h1 | h1
        · exact absurd h1.symm hx
        · exact h1
      simp [colIdx, hx, ih hc]

theorem colIdx_append_right {l1 : List String} {c : String} (l2 : List String)
    (h : c ∉ l1) : colIdx (l1 ++ l2) c = (colIdx l2 c).map (· + l1.length) := by
  induction l1 with
  | nil => simp
  | cons x xs ih =>
    have hx : x ≠ c := fun hh => h (by simp [hh])
    have hc : c ∉ xs := fun hh => h (by simp [hh])
    rw [List.cons_append, colIdx, if_neg hx, ih hc]
    cases colIdx l2 c with
    | none => rfl
    | some a =>
      simp only [Option.map_some', List.length_cons, Option.some.injEq]
      omega

theorem colIdx_append_self {l1 : List String} {c : String} (h : c ∉ l1) :
    colIdx (l1 ++ [c]) c = some l1.length := by
  rw [colIdx_append_right _ h]
  simp [colIdx]

theorem colIdx_nodup_get {cols : List String} (hnd : cols.Nodup) (j : Nat)
    (hj : j < cols.length) : colIdx cols (cols.get ⟨j, hj⟩) = some j := by
  induction cols generalizing j with
  | nil => simp at hj
  | cons x xs ih =>
    cases j with
    | zero => simp [colIdx]
    | succ j =>
      have hj' : j < xs.length := by simpa using hj
      have hmem : xs.get ⟨j, hj'⟩ ∈ xs := List.get_mem xs _ _
      have hx : x ≠ xs.get ⟨j, hj'⟩ := by
        intro hh
        exact (List.nodup_cons.mp hnd).1 (hh ▸ hmem)
      have hrec := ih (List.nodup_cons.mp hnd).2 j hj'
      show colIdx (x :: xs) ((x :: xs).get ⟨j + 1, hj⟩) = some (j + 1)
      rw [List.get_cons_succ]
      rw [colIdx, if_neg hx, hrec]
      rfl

/- ### List getD/set helper lemmas -/

theorem getD_set_self {α : Type} (l : List α) (i : Nat) (v d : α)
    (h : i < l.length) : (l.set i v).getD i d = v := by
  rw [List.getD_eq_getElem?_getD, List.getElem?_set_self h]
  rfl

theorem getD_set_ne {α : Type} (l : List α) {i j : Nat} (v d : α)
    (h : i ≠ j) : (l.set i v).getD j d = l.getD j d := by
  rw [List.getD_eq_getElem?_getD, List.getElem?_set_ne h, ← List.getD_eq_getElem?_getD]

theorem getD_append_left {α : Type} (l l' : List α) (d : α) {n : Nat}
    (h : n < l.length) : (l ++ l').getD n d = l.getD n d :=
  List.getD_append l l' d n h

theorem getD_append_right {α : Type} (l l' : List α) (d : α) {n : Nat}
    (h : l.length ≤ n) : (l ++ l').getD n d = l'.getD (n - l.length) d := by
  rw [List.getD_eq_getElem?_getD, List.getElem?_append_right h,
    ← List.getD_eq_getElem?_getD]

theorem getD_replicate {α : Type} (a d : α) {n i : Nat} (h : i < n) :
    (List.replicate n a).getD i d = a := by
  rw [List.getD_eq_getElem _ _ (by simpa using h)]
  exact List.getElem_replicate _ _

theorem getD_map_rows (g : List Cell → List Cell) (rows : List (List Cell))
    (i : Nat) (hg : g [] = []) : (rows.map g).getD i [] = g (rows.getD i []) := by
  conv_lhs => rw [← hg]
  rw [List.getD_map]

theorem rowAt_mem {t : Table} {i : Nat} (hi : i < t.rows.length) :
    t.rows.getD i [] ∈ t.rows := by
  rw [List.getD_eq_getElem _ _ hi]
  exact List.getElem_mem _

/- ### Basic facts about the ℚ embedding of numerals -/

theorem mkRat_zero_one : mkRat 0 1 = 0 := by
  rw [Rat.mkRat_eq_div]; norm_num

theorem mkRat_int (z : ℤ) : mkRat z 1 = (z : ℚ) := by
  rw [Rat.mkRat_eq_div]; norm_num

theorem intCell_den (z : ℤ) : ∃ q : ℚ, intCell z = Cell.num q ∧ q.den = 1 := by
  refine ⟨(z : ℚ), ?_, Rat.den_intCast z⟩
  unfold intCell
  rw [mkRat_int]

/- ### Table operation lemmas -/

theorem mapCol_cols (t : Table) (c : String) (f : Cell → Cell) :
    (mapCol t c f).cols = t.cols := by
  unfold mapCol; cases colIdx t.cols c <;> rfl

theorem mapCol_rows_length (t : Table) (c : String) (f : Cell → Cell) :
    (mapCol t c f).rows.length = t.rows.length := by
  unfold mapCol; cases colIdx t.cols c <;> simp

theorem mapCol_WF {t : Table} (c : String) (f : Cell → Cell) (h : t.WF) :
    (mapCol t c f).WF := by
  unfold mapCol
  cases colIdx t.cols c with
  | none => exact h
  | some i =>
    intro r hr
    obtain ⟨r0, hr0, rfl⟩ := List.mem_map.mp hr
    simpa [List.length_set] using h r0 hr0

theorem getCell_some {cols : List String} {c : String} {j : Nat} (r : List Cell)
    (h : colIdx cols c = some j) : getCell cols r c = r.getD j Cell.null := by
  unfold getCell
  rw [h]

theorem getCell_none {cols : List String} {c : String} (r : List Cell)
    (h : colIdx cols c = none) : getCell cols r c = Cell.null := by
  unfold getCell
  rw [h]

theorem getCell_mapCol_ne (t : Table) {c c' : String} (f : Cell → Cell) (i : Nat)
    (hne : c' ≠ c) :
    getCell (mapCol t c f).cols ((mapCol t c f).rows.getD i []) c' =
      getCell t.cols (t.rows.getD i []) c' := by
  unfold mapCol
  cases hj : colIdx t.cols c with
  | none => rfl
  | some j =>
    simp only
    cases hj' : colIdx t.cols c' with
    | none => rw [getCell_none _ hj', getCell_none _ hj']
    | some j' =>
      have hjj : j ≠ j' := fun hh => hne (colIdx_inj hj' (hh ▸ hj))
      rw [getCell_some _ hj', getCell_some _ hj', getD_map_rows _ _ _ rfl,
        getD_set_ne _ _ _ hjj]

theorem getCell_mapCol_self (t : Table) {c : String} (f : Cell → Cell) (i : Nat)
    (hwf : t.WF) (hi : i < t.rows.length) (hc : c ∈ t.cols) :
    getCell (mapCol t c f).cols ((mapCol t c f).rows.getD i []) c =
      f (getCell t.cols (t.rows.getD i []) c) := by
  obtain ⟨j, hj⟩ := Option.isSome_iff_exists.mp ((colIdx_isSome_iff t.cols c).mpr hc)
  have hjlen : j < (t.rows.getD i []).length := by
    rw [hwf _ (rowAt_mem hi)]
    exact colIdx_lt hj
  unfold mapCol
  rw [hj]
  simp only
  rw [getCell_some _ hj, getCell_some _ hj, getD_map_rows _ _ _ rfl,
    getD_set_self _ _ _ _ hjlen]

theorem setCol_rows_length (t : Table) (c : String) (vals : List Cell)
    (hlen : vals.length = t.rows.length) :
    (setCol t c vals).rows.length = t.rows.length := by
  unfold setCol
  cases colIdx t.cols c <;> simp [List.length_zipWith, hlen]

theorem setCol_WF {t : Table} (c : String) (vals : List Cell) (hwf : t.WF) :
    (setCol t c vals).WF := by
  unfold setCol
  cases hj : colIdx t.cols c with
  | some j =>
    intro r hr
    obtain ⟨k, hk, rfl⟩ := List.mem_iff_getElem.mp hr
    rw [List.getElem_zipWith]
    simp only [List.length_set]
    exact hwf _ (List.getElem_mem _)
  | none =>
    intro r hr
    obtain ⟨k, hk, rfl⟩ := List.mem_iff_getElem.mp hr
    rw [List.getElem_zipWith]
    simp only [List.length_append, List.length_singleton]
    rw [hwf _ (List.getElem_mem _)]

theorem getCell_setCol_self (t : Table) {c : String} (vals : List Cell) (i : Nat)
    (hwf : t.WF) (hlen : vals.length = t.rows.length) (hi : i < t.rows.length) :
    getCell (setCol t c vals).cols ((setCol t c vals).rows.getD i []) c =
      vals.getD i Cell.null := by
  have hiv : i < vals.length := by omega
  unfold setCol
  cases hj : colIdx t.cols c with
  | some j =>
    simp only
    have hzlen : i < (t.rows.zipWith (fun r v => r.set j v) vals).length := by
      simp [List.length_zipWith]; omega
    rw [getCell_some _ hj, List.getD_eq_getElem _ _ hzlen, List.getElem_zipWith]
    have hjlen : j < (getElem t.rows i (by omega)).length := by
      rw [hwf _ (List.getElem_mem _)]
      exact colIdx_lt hj
    rw [getD_set_self _ _ _ _ hjlen, List.getD_eq_getElem _ _ hiv]
  | none =>
    simp only
    have hnc : c ∉ t.cols := (colIdx_eq_none_iff _ _).mp hj
    have hzlen : i < (t.rows.zipWith (fun r v => r ++ [v]) vals).length := by
      simp [List.length_zipWith]; omega
    rw [getCell_some _ (colIdx_append_self hnc),
      List.getD_eq_getElem _ _ hzlen, List.getElem_zipWith]
    have hrl : (getElem t.rows i (by omega)).length = t.cols.length :=
      hwf _ (List.getElem_mem _)
    rw [getD_append_right _ _ _ (by omega), hrl]
    simp only [Nat.sub_self, List.getD_cons_zero]
    rw [List.getD_eq_getElem _ _ hiv]

theorem getCell_setCol_ne (t : Table) {c c' : String} (vals : List Cell) (i : Nat)
    (hne : c' ≠ c) (hwf : t.WF) (hlen : vals.length = t.rows.length)
    (hi : i < t.rows.length) :
    getCell (setCol t c vals).cols ((setCol t c vals).rows.getD i []) c' =
      getCell t.cols (t.rows.getD i []) c' := by
  have hiv : i < vals.length := by omega
  unfold setCol
  cases hj : colIdx t.cols c with
  | some j =>
    simp only
    cases hj' : colIdx t.cols c' with
    | none => rw [getCell_none _ hj', getCell_none _ hj']
    | some j' =>
      have hjj : j ≠ j' := fun hh => hne (colIdx_inj hj' (hh ▸ hj))
      have hzlen : i < (t.rows.zipWith (fun r v => r.set j v) vals).length := by
        simp [List.length_zipWith]; omega
      rw [getCell_some _ hj', getCell_some _ hj',
        List.getD_eq_getElem _ _ hzlen, List.getElem_zipWith,
        getD_set_ne _ _ _ hjj, List.getD_eq_getElem _ _ hi]
  | none =>
    simp only
    have hnc : c ∉ t.cols := (colIdx_eq_none_iff _ _).mp hj
    have hzlen : i < (t.rows.zipWith (fun r v => r ++ [v]) vals).length := by
      simp [List.length_zipWith]; omega
    by_cases hc' : c' ∈ t.cols
    · obtain ⟨j', hj'⟩ :=
        Option.isSome_iff_exists.mp ((colIdx_isSome_iff t.cols c').mpr hc')
      have happ : colIdx (t.cols ++ [c]) c' = some j' := by
        rw [colIdx_append_left _ hc']; exact hj'
      rw [getCell_some _ happ, getCell_some _ hj',
        List.getD_eq_getElem _ _ hzlen, List.getElem_zipWith]
      have hrl : (getElem t.rows i (by omega)).length = t.cols.length :=
        hwf _ (List.getElem_mem _)
      have hj'lt : j' < (getElem t.rows i (by omega)).length := by
        rw [hrl]; exact colIdx_lt hj'
      rw [getD_append_left _ _ _ hj'lt, List.getD_eq_getElem _ _ hi]
    · have h1 : colIdx (t.cols ++ [c]) c' = none := by
        rw [colIdx_append_right _ hc']
        have h2 : colIdx [c] c' = none := by
          rw [colIdx_eq_none_iff]
          simpa using fun hh => hne hh
        rw [h2]; rfl
      rw [getCell_none _ h1, getCell_none _ ((colIdx_eq_none_iff t.cols c').mpr hc')]

/- ### Coercion lemmas for `add_total` -/

theorem cellNum_fillZero (c : Cell) : cellNum (fillZero c) = cellNum c := by
  cases c <;> simp [fillZero, cellNum]

theorem fill_toNumeric_isNum (x : Cell) :
    ∃ q : ℚ, fillZero (toNumericCell x) = Cell.num q := by
  cases x with
  | num q => exact ⟨q, rfl⟩
  | null => exact ⟨0, rfl⟩
  | date y m d => exact ⟨0, rfl⟩
  | str s =>
    cases hp : parseNum s with
    | none => exact ⟨0, by simp [toNumericCell, hp, fillZero]⟩
    | some q => exact ⟨q, by simp [toNumericCell, hp, fillZero]⟩

theorem coerce_idem (x : Cell) :
    fillZero (toNumericCell (fillZero (toNumericCell x))) =
      fillZero (toNumericCell x) := by
  obtain ⟨q, hq⟩ := fill_toNumeric_isNum x
  rw [hq]
  rfl

theorem coerceStep_rows_length (t : Table) (c : String) :
    (coerceStep t c).rows.length = t.rows.length := by
  unfold coerceStep
  by_cases h : (colIdx t.cols c).isSome
  · rw [if_pos h, mapCol_rows_length]
  · rw [if_neg h, mapCol_rows_length,
      setCol_rows_length _ _ _ (List.length_replicate _ _)]

theorem coerceStep_WF {t : Table} (c : String) (hwf : t.WF) :
    (coerceStep t c).WF := by
  unfold coerceStep
  by_cases h : (colIdx t.cols c).isSome
  · rw [if_pos h]; exact mapCol_WF _ _ hwf
  · rw [if_neg h]; exact mapCol_WF _ _ (setCol_WF _ _ hwf)

theorem getCell_coerceStep_self (t : Table) (c : String) (i : Nat)
    (hwf : t.WF) (hi : i < t.rows.length) :
    getCell (coerceStep t c).cols ((coerceStep t c).rows.getD i []) c =
      fillZero (toNumericCell (getCell t.cols (t.rows.getD i []) c)) := by
  unfold coerceStep
  by_cases h : (colIdx t.cols c).isSome
  · rw [if_pos h]
    exact getCell_mapCol_self _ _ _ hwf hi ((colIdx_isSome_iff _ _).mp h)
  · rw [if_neg h]
    have hnone : colIdx t.cols c = none := Option.not_isSome_iff_eq_none.mp h
    have hwf1 : (setCol t c (List.replicate t.rows.length (intCell 0))).WF :=
      setCol_WF _ _ hwf
    have hlen1 : (setCol t c (List.replicate t.rows.length (intCell 0))).rows.length
        = t.rows.length := setCol_rows_length _ _ _ (List.length_replicate _ _)
    have hc1 : c ∈ (setCol t c (List.replicate t.rows.length (intCell 0))).cols := by
      unfold setCol
      rw [hnone]
      simp
    rw [getCell_mapCol_self _ _ _ hwf1 (by omega) hc1,
      getCell_setCol_self _ _ _ hwf (List.length_replicate _ _) hi,
      getD_replicate _ _ hi, getCell_none _ hnone]
    simp [intCell, toNumericCell, fillZero, mkRat_zero_one]

theorem getCell_coerceStep_ne (t : Table) {c c' : String} (i : Nat)
    (hne : c' ≠ c) (hwf : t.WF) (hi : i < t.rows.length) :
    getCell (coerceStep t c).cols ((coerceStep t c).rows.getD i []) c' =
      getCell t.cols (t.rows.getD i []) c' := by
  unfold coerceStep
  by_cases h : (colIdx t.cols c).isSome
  · rw [if_pos h, getCell_mapCol_ne _ _ _ hne]
  · rw [if_neg h, getCell_mapCol_ne _ _ _ hne,
      getCell_setCol_ne _ _ _ hne hwf (List.length_replicate _ _) hi]

theorem foldl_coerce_rows_length (cols : List String) (t : Table) :
    (cols.foldl coerceStep t).rows.length = t.rows.length := by
  induction cols generalizing t with
  | nil => rfl
  | cons c cs ih => rw [List.foldl_cons, ih, coerceStep_rows_length]

theorem foldl_coerce_WF (cols : List String) {t : Table} (hwf : t.WF) :
    (cols.foldl coerceStep t).WF := by
  induction cols generalizing t with
  | nil => exact hwf
  | cons c cs ih => rw [List.foldl_cons]; exact ih (coerceStep_WF _ hwf)

theorem getCell_foldl_coerce_ne (cols : List String) (t : Table) {c' : String}
    (hc' : c' ∉ cols) (hwf : t.WF) (i : Nat) (hi : i < t.rows.length) :
    getCell (cols.foldl coerceStep t).cols
        ((cols.foldl coerceStep t).rows.getD i []) c' =
      getCell t.cols (t.rows.getD i []) c' := by
  induction cols generalizing t with
  | nil => rfl
  | cons c cs ih =>
    have hcc : c' ∉ cs := fun hh => hc' (by simp [hh])
    have hne : c' ≠ c := fun hh => hc' (by simp [hh])
    rw [List.foldl_cons,
      ih (coerceStep t c) hcc (coerceStep_WF _ hwf)
        (by rw [coerceStep_rows_length]; omega),
      getCell_coerceStep_ne _ _ hne hwf hi]

theorem getCell_foldl_coerce_mem (cols : List String) (t : Table) {c : String}
    (hc : c ∈ cols) (hwf : t.WF) (i : Nat) (hi : i < t.rows.length) :
    getCell (cols.foldl coerceStep t).cols
        ((cols.foldl coerceStep t).rows.getD i []) c =
      fillZero (toNumericCell (getCell t.cols (t.rows.getD i []) c)) := by
  induction cols generalizing t with
  | nil => simp at hc
  | cons c0 cs ih =>
    rw [List.foldl_cons]
    by_cases hcc : c ∈ cs
    · rw [ih (coerceStep t c0) hcc (coerceStep_WF _ hwf)
        (by rw [coerceStep_rows_length]; omega)]
      by_cases he : c = c0
      · subst he
        rw [getCell_coerceStep_self _ _ _ hwf hi, coerce_idem]
      · rw [getCell_coerceStep_ne _ _ he hwf hi]
    · have he : c = c0 := by
        rcases List.mem_cons.mp hc with h1 | h1
        · exact h1
        · exact absurd h1 hcc
      subst he
      rw [getCell_foldl_coerce_ne cs _ hcc (coerceStep_WF _ hwf) i
        (by rw [coerceStep_rows_length]; omega)]
      exact getCell_coerceStep_self _ _ _ hwf hi

theorem setCol_cols_mono {t : Table} (c : String) (vals : List Cell)
    {c' : String} (h : c' ∈ t.cols) : c' ∈ (setCol t c vals).cols := by
  unfold setCol
  cases colIdx t.cols c with
  | some j => exact h
  | none => simp [h]

theorem coerceStep_cols_mono {t : Table} (c : String) {c' : String}
    (h : c' ∈ t.cols) : c' ∈ (coerceStep t c).cols := by
  unfold coerceStep
  by_cases hp : (colIdx t.cols c).isSome
  · rw [if_pos hp, mapCol_cols]; exact h
  · rw [if_neg hp, mapCol_cols]; exact setCol_cols_mono _ _ h

theorem coerceStep_cols_self (t : Table) (c : String) :
    c ∈ (coerceStep t c).cols := by
  unfold coerceStep
  by_cases hp : (colIdx t.cols c).isSome
  · rw [if_pos hp, mapCol_cols]; exact (colIdx_isSome_iff _ _).mp hp
  · rw [if_neg hp, mapCol_cols]
    unfold setCol
    rw [Option.not_isSome_iff_eq_none.mp hp]
    simp

theorem foldl_coerce_cols_mono (cols : List String) (t : Table) {c' : String}
    (h : c' ∈ t.cols) : c' ∈ (cols.foldl coerceStep t).cols := by
  induction cols generalizing t with
  | nil => exact h
  | cons c0 cs ih =>
    rw [List.foldl_cons]
    exact ih _ (coerceStep_cols_mono _ h)

theorem foldl_coerce_cols_mem (cols : List String) (t : Table) {c : String}
    (hc : c ∈ cols) : c ∈ (cols.foldl coerceStep t).cols := by
  induction cols generalizing t with
  | nil => simp at hc
  | cons c0 cs ih =>
    rw [List.foldl_cons]
    by_cases hcc : c ∈ cs
    · exact ih _ hcc
    · have he : c = c0 := by
        rcases List.mem_cons.mp hc with h1 | h1
        · exact h1
        · exact absurd h1 hcc
      subst he
      exact foldl_coerce_cols_mono cs _ (coerceStep_cols_self t c)

/- ### Claim C2 -/

/-- C2 (amended): after `add_total`, each row's output cell equals the
truncation toward zero of the exact sum of the coerced expected-column
values (an absent column and an unparsable cell both contributing 0), and
equals the exact sum itself whenever every coerced value is an integer. -/
theorem totalizer_total_truncated_sum (t : Table) (cols : List String)
    (name : String) (hwf : t.WF) (i : Nat) (hi : i < t.rows.length) :
    getCell (add_total t cols name).cols
        ((add_total t cols name).rows.getD i []) name =
      intCell (truncQ (qsum (cols.map (contrib t (t.rows.getD i []))))) ∧
    ((∀ c ∈ cols, (contrib t (t.rows.getD i []) c).den = 1) →
      getCell (add_total t cols name).cols
          ((add_total t cols name).rows.getD i []) name =
        Cell.num (qsum (cols.map (contrib t (t.rows.getD i []))))) := by
  have hwf1 : (cols.foldl coerceStep t).WF := foldl_coerce_WF _ hwf
  have hlen1 : (cols.foldl coerceStep t).rows.length = t.rows.length :=
    foldl_coerce_rows_length _ _
  have hmain : getCell (add_total t cols name).cols
      ((add_total t cols name).rows.getD i []) name =
        intCell (truncQ (qsum (cols.map (contrib t (t.rows.getD i []))))) := by
    show getCell
        (setCol (cols.foldl coerceStep t) name ((cols.foldl coerceStep t).rows.map
          (fun r => intCell (truncQ (qsum (cols.map (fun c =>
            cellNum (getCell (cols.foldl coerceStep t).cols r c)))))))).cols
        ((setCol (cols.foldl coerceStep t) name ((cols.foldl coerceStep t).rows.map
          (fun r => intCell (truncQ (qsum (cols.map (fun c =>
            cellNum (getCell (cols.foldl coerceStep t).cols r c)))))))).rows.getD i [])
        name = _
    rw [getCell_setCol_self _ _ i hwf1 (by simp) (by omega)]
    have hi1 : i < (cols.foldl coerceStep t).rows.length := by omega
    rw [List.getD_eq_getElem _ _ (by simpa using hi1), List.getElem_map]
    have hcong : cols.map (fun c =>
        cellNum (getCell (cols.foldl coerceStep t).cols
          (getElem (cols.foldl coerceStep t).rows i hi1) c)) =
        cols.map (contrib t (t.rows.getD i [])) := by
      refine List.map_congr_left (fun c hc => ?_)
      rw [← List.getD_eq_getElem _ _ hi1,
        getCell_foldl_coerce_mem cols t hc hwf i hi, cellNum_fillZero]
      rfl
    rw [hcong]
  refine ⟨hmain, fun hden => ?_⟩
  rw [hmain]
  refine intCell_truncQ_of_den_one (qsum_den_one ?_)
  intro q hq
  obtain ⟨c, hc, rfl⟩ := List.mem_map.mp hq
  exact hden c hc

/-- C2 witness: on a concrete table with an integer metric, an absent
expected column and a junk column, the total is the exact sum. -/
theorem totalizer_total_truncated_sum_spot :
    intJunkT.WF ∧ 0 < intJunkT.rows.length ∧
    (∀ c ∈ ["a", "b"], (contrib intJunkT (intJunkT.rows.getD 0 []) c).den = 1) ∧
    getCell (add_total intJunkT ["a", "b"] "tot").cols
        ((add_total intJunkT ["a", "b"] "tot").rows.getD 0 []) "tot" =
      Cell.num (qsum (["a", "b"].map (contrib intJunkT (intJunkT.rows.getD 0 [])))) :=
  ⟨by decide, by decide, by decide,
    (totalizer_total_truncated_sum intJunkT ["a", "b"] "tot"
      (by decide) 0 (by decide)).2 (by decide)⟩

/-- C2 counterexample: with a fractional cell 2.5, the output total is the
truncated 2, not the exact sum 5/2 — the claim's "exact integer sum" fails. -/
theorem totalizer_exact_sum_fails_on_fraction :
    getCell (add_total fracT ["a"] "t").cols
        ((add_total fracT ["a"] "t").rows.getD 0 []) "t" = intCell 2 ∧
    qsum (["a"].map (contrib fracT (fracT.rows.getD 0 []))) = mkRat 5 2 ∧
    intCell 2 ≠ Cell.num (mkRat 5 2) := by decide

/- ### Claim C7 -/

/-- C7 (amended): after `add_total` every declared expected column exists
and every value in it is numeric — the coerced original value, with
unparsable and missing inputs as 0; negative inputs are preserved, not
coerced to 0. -/
theorem totalizer_metric_columns_numeric (t : Table) (cols : List String)
    (name : String) (hwf : t.WF) (hname : name ∉ cols) {c : String}
    (hc : c ∈ cols) :
    c ∈ (add_total t cols name).cols ∧
    ∀ i < t.rows.length,
      getCell (add_total t cols name).cols
          ((add_total t cols name).rows.getD i []) c =
        fillZero (toNumericCell (getCell t.cols (t.rows.getD i []) c)) ∧
      ∃ q : ℚ, getCell (add_total t cols name).cols
          ((add_total t cols name).rows.getD i []) c = Cell.num q := by
  have hwf1 : (cols.foldl coerceStep t).WF := foldl_coerce_WF _ hwf
  have hlen1 : (cols.foldl coerceStep t).rows.length = t.rows.length :=
    foldl_coerce_rows_length _ _
  have hne : c ≠ name := fun hh => hname (hh ▸ hc)
  constructor
  · show c ∈ (setCol (cols.foldl coerceStep t) name _).cols
    exact setCol_cols_mono _ _ (foldl_coerce_cols_mem cols t hc)
  · intro i hi
    have hcell : getCell (add_total t cols name).cols
        ((add_total t cols name).rows.getD i []) c =
          fillZero (toNumericCell (getCell t.cols (t.rows.getD i []) c)) := by
      show getCell (setCol (cols.foldl coerceStep t) name
          ((cols.foldl coerceStep t).rows.map _)).cols
        ((setCol (cols.foldl coerceStep t) name
          ((cols.foldl coerceStep t).rows.map _)).rows.getD i []) c = _
      rw [getCell_setCol_ne _ _ i hne hwf1 (by simp) (by omega)]
      exact getCell_foldl_coerce_mem cols t hc hwf i hi
    exact ⟨hcell, by rw [hcell]; exact fill_toNumeric_isNum _⟩

/-- C7 witness: concrete unparsable and absent metric inputs become 0 and
the column is materialized numerically. -/
theorem totalizer_metric_columns_numeric_spot :
    strNumT.WF ∧ "t" ∉ ["a", "b", "zz"] ∧ "b" ∈ ["a", "b", "zz"] ∧
    getCell (add_total strNumT ["a", "b", "zz"] "t").cols
        ((add_total strNumT ["a", "b", "zz"] "t").rows.getD 0 []) "b" =
      fillZero (toNumericCell (getCell strNumT.cols (strNumT.rows.getD 0 []) "b")) :=
  ⟨by decide, by decide, by decide,
    ((totalizer_metric_columns_numeric strNumT ["a", "b", "zz"] "t"
      (by decide) (by decide) (by decide)).2 0 (by decide)).1⟩

/-- C7 counterexample: a negative metric value stays negative in both the
coerced column and the total, refuting the claimed non-negativity. -/
theorem totalizer_negative_preserved :
    getCell (add_total negT ["a"] "t").cols
        ((add_total negT ["a"] "t").rows.getD 0 []) "a" = intCell (-3) ∧
    getCell (add_total negT ["a"] "t").cols
        ((add_total negT ["a"] "t").rows.getD 0 []) "t" = intCell (-3) ∧
    (mkRat (-3) 1).num < 0 := by decide

/- ### Claim C10 -/

/-- C10 (confirmed): `add_total` returns a table with the same number of
rows in the same order and leaves every column other than the expected
columns and the output column unchanged; as a pure function of its input it
does not mutate the caller's table (the source copies the frame first). -/
theorem totalizer_frame (t : Table) (cols : List String) (name : String)
    (hwf : t.WF) :
    (add_total t cols name).rows.length = t.rows.length ∧
    ∀ c', c' ∉ cols → c' ≠ name → ∀ i < t.rows.length,
      getCell (add_total t cols name).cols
          ((add_total t cols name).rows.getD i []) c' =
        getCell t.cols (t.rows.getD i []) c' := by
  have hwf1 : (cols.foldl coerceStep t).WF := foldl_coerce_WF _ hwf
  have hlen1 : (cols.foldl coerceStep t).rows.length = t.rows.length :=
    foldl_coerce_rows_length _ _
  constructor
  · show (setCol (cols.foldl coerceStep t) name _).rows.length = _
    rw [setCol_rows_length _ _ _ (by simp)]
    exact hlen1
  · intro c' hc' hc'name i hi
    show getCell (setCol (cols.foldl coerceStep t) name
        ((cols.foldl coerceStep t).rows.map _)).cols
      ((setCol (cols.foldl coerceStep t) name
        ((cols.foldl coerceStep t).rows.map _)).rows.getD i []) c' = _
    rw [getCell_setCol_ne _ _ i hc'name hwf1 (by simp) (by omega)]
    exact getCell_foldl_coerce_ne cols t hc' hwf i hi

/-- C10 witness: a column outside the expected set is untouched on a
concrete table. -/
theorem totalizer_frame_spot :
    keepT.WF ∧ "keep" ∉ ["a"] ∧ "keep" ≠ "t" ∧
    getCell (add_total keepT ["a"] "t").cols
        ((add_total keepT ["a"] "t").rows.getD 0 []) "keep" =
      getCell keepT.cols (keepT.rows.getD 0 []) "keep" :=
  ⟨by decide, by decide, by decide,
    (totalizer_frame keepT ["a"] "t" (by decide)).2 "keep"
      (by decide) (by decide) 0 (by decide)⟩

/- ### Claim C3 -/

/-- C3 (code bug): with all three loaders empty, the combined pipeline does
not reach its empty-data check; the very first groupby on the composite key
fails (KeyError: the empty normalized+totalized tables have no key
columns), so no EmptyResult is reported before the join — the join itself
errors. -/
theorem combined_empty_inputs_error :
    groupbySum (add_total (normalize emptyTable) enrolCols "enrol")
      keyNames "enrol" = none ∧
    combinedPipeline emptyTable emptyTable emptyTable = none := by decide

/- ### Claim C5 -/

/-- C5 (code bug): `normalize` removes every occurrence of ".0" from a
pincode, not only a trailing suffix: "110.05" (no trailing ".0") becomes
"1105" instead of staying untouched; the intended float-artifact case
"110001.0" → "110001" also holds. -/
theorem pincode_replace_all_occurrences :
    normalize pinInnerT = ⟨["pincode"], [[Cell.str "1105"]]⟩ ∧
    stripDot0 "110.05" = "1105" ∧ "1105" ≠ "110.05" ∧
    stripDot0 "110001.0" = "110001" := by decide

/- ### Claim C8 -/

/-- C8 (code bug): `normalize` and `add_total` do accept an empty table —
`normalize` passes it through and `add_total` materializes the expected and
total columns with zero rows — but the Aggregator component applied to
three empty tables errors (groupby KeyError on the missing key columns)
instead of returning a well-formed empty table. -/
theorem components_on_empty :
    normalize emptyTable = emptyTable ∧
    (add_total emptyTable enrolCols "total").rows = [] ∧
    (add_total emptyTable enrolCols "total").cols =
      ["age_0_5", "age_5_17", "age_18_greater", "total"] ∧
    combinedAgg emptyTable emptyTable emptyTable = none := by decide

/- ### Claim C6 counterexample -/

/-- C6 counterexample: for an unparsable date the derived `month` cell is
the non-null placeholder string "NaT", not null/absent as claimed. -/
theorem month_placeholder_on_unparsable_date :
    normalize badDateT =
      ⟨["date", "x", "month"], [[Cell.null, intCell 1, Cell.str "NaT"]]⟩ ∧
    Cell.str "NaT" ≠ Cell.null := by decide

/- ### Normalize step lemmas -/

theorem renameCols_WF {t : Table} (hwf : t.WF) : (renameCols t).WF := by
  intro r hr
  rw [renameCols] at hr ⊢
  simpa using hwf r hr

theorem dateStep_rows_length (t : Table) :
    (dateStep t).rows.length = t.rows.length := by
  unfold dateStep
  by_cases h : (colIdx t.cols "date").isSome
  · rw [if_pos h]
    simp only
    rw [setCol_rows_length _ _ _ (by simp), mapCol_rows_length]
  · rw [if_neg h]

theorem dateStep_WF {t : Table} (hwf : t.WF) : (dateStep t).WF := by
  unfold dateStep
  by_cases h : (colIdx t.cols "date").isSome
  · rw [if_pos h]
    exact setCol_WF _ _ (mapCol_WF _ _ hwf)
  · rw [if_neg h]; exact hwf

theorem getCell_dateStep_date (t : Table) (i : Nat) (hwf : t.WF)
    (hi : i < t.rows.length) (hd : "date" ∈ t.cols) :
    getCell (dateStep t).cols ((dateStep t).rows.getD i []) "date" =
      toDatetimeCell (getCell t.cols (t.rows.getD i []) "date") := by
  unfold dateStep
  rw [if_pos ((colIdx_isSome_iff _ _).mpr hd)]
  simp only
  rw [getCell_setCol_ne _ _ i (by decide) (mapCol_WF _ _ hwf) (by simp)
    (by rw [mapCol_rows_length]; omega)]
  exact getCell_mapCol_self _ _ _ hwf hi hd

theorem getCell_dateStep_month (t : Table) (i : Nat) (hwf : t.WF)
    (hi : i < t.rows.length) (hd : "date" ∈ t.cols) :
    getCell (dateStep t).cols ((dateStep t).rows.getD i []) "month" =
      monthCell (toDatetimeCell (getCell t.cols (t.rows.getD i []) "date")) := by
  unfold dateStep
  rw [if_pos ((colIdx_isSome_iff _ _).mpr hd)]
  simp only
  have hlm : i < (mapCol t "date" toDatetimeCell).rows.length := by
    rw [mapCol_rows_length]; omega
  rw [getCell_setCol_self _ _ i (mapCol_WF _ _ hwf) (by simp) hlm]
  rw [List.getD_eq_getElem _ _ (by simpa using hlm), List.getElem_map,
    ← List.getD_eq_getElem _ _ hlm]
  rw [getCell_mapCol_self _ _ _ hwf hi hd]

theorem getCell_dateStep_ne (t : Table) {c' : String} (i : Nat) (hwf : t.WF)
    (hi : i < t.rows.length) (h1 : c' ≠ "date") (h2 : c' ≠ "month") :
    getCell (dateStep t).cols ((dateStep t).rows.getD i []) c' =
      getCell t.cols (t.rows.getD i []) c' := by
  unfold dateStep
  by_cases h : (colIdx t.cols "date").isSome
  · rw [if_pos h]
    simp only
    rw [getCell_setCol_ne _ _ i h2 (mapCol_WF _ _ hwf) (by simp)
      (by rw [mapCol_rows_length]; omega)]
    exact getCell_mapCol_ne _ _ _ h1
  · rw [if_neg h]

theorem textStep_cols (c : String) (t : Table) : (textStep c t).cols = t.cols := by
  unfold textStep
  by_cases h : (colIdx t.cols c).isSome
  · rw [if_pos h, mapCol_cols]
  · rw [if_neg h]

theorem textStep_rows_length (c : String) (t : Table) :
    (textStep c t).rows.length = t.rows.length := by
  unfold textStep
  by_cases h : (colIdx t.cols c).isSome
  · rw [if_pos h, mapCol_rows_length]
  · rw [if_neg h]

theorem textStep_WF (c : String) {t : Table} (hwf : t.WF) : (textStep c t).WF := by
  unfold textStep
  by_cases h : (colIdx t.cols c).isSome
  · rw [if_pos h]; exact mapCol_WF _ _ hwf
  · rw [if_neg h]; exact hwf

theorem getCell_textStep_ne (c : String) (t : Table) {c' : String} (i : Nat)
    (hne : c' ≠ c) :
    getCell (textStep c t).cols ((textStep c t).rows.getD i []) c' =
      getCell t.cols (t.rows.getD i []) c' := by
  unfold textStep
  by_cases h : (colIdx t.cols c).isSome
  · rw [if_pos h]; exact getCell_mapCol_ne _ _ _ hne
  · rw [if_neg h]

theorem getCell_textStep_self (c : String) (t : Table) (i : Nat) (hwf : t.WF)
    (hi : i < t.rows.length) (hc : c ∈ t.cols) :
    getCell (textStep c t).cols ((textStep c t).rows.getD i []) c =
      Cell.str (trimStr (astypeStr (getCell t.cols (t.rows.getD i []) c))) := by
  unfold textStep
  rw [if_pos ((colIdx_isSome_iff _ _).mpr hc)]
  exact getCell_mapCol_self _ _ _ hwf hi hc

theorem pinStep_cols (t : Table) : (pinStep t).cols = t.cols := by
  unfold pinStep
  by_cases h : (colIdx t.cols "pincode").isSome
  · rw [if_pos h, mapCol_cols]
  · rw [if_neg h]

theorem pinStep_rows_length (t : Table) :
    (pinStep t).rows.length = t.rows.length := by
  unfold pinStep
  by_cases h : (colIdx t.cols "pincode").isSome
  · rw [if_pos h, mapCol_rows_length]
  · rw [if_neg h]

theorem pinStep_WF {t : Table} (hwf : t.WF) : (pinStep t).WF := by
  unfold pinStep
  by_cases h : (colIdx t.cols "pincode").isSome
  · rw [if_pos h]; exact mapCol_WF _ _ hwf
  · rw [if_neg h]; exact hwf

theorem getCell_pinStep_ne (t : Table) {c' : String} (i : Nat)
    (hne : c' ≠ "pincode") :
    getCell (pinStep t).cols ((pinStep t).rows.getD i []) c' =
      getCell t.cols (t.rows.getD i []) c' := by
  unfold pinStep
  by_cases h : (colIdx t.cols "pincode").isSome
  · rw [if_pos h]; exact getCell_mapCol_ne _ _ _ hne
  · rw [if_neg h]

theorem getCell_pinStep_self (t : Table) (i : Nat) (hwf : t.WF)
    (hi : i < t.rows.length) (hc : "pincode" ∈ t.cols) :
    getCell (pinStep t).cols ((pinStep t).rows.getD i []) "pincode" =
      Cell.str (stripDot0 (astypeStr (getCell t.cols (t.rows.getD i []) "pincode"))) := by
  unfold pinStep
  rw [if_pos ((colIdx_isSome_iff _ _).mpr hc)]
  exact getCell_mapCol_self _ _ _ hwf hi hc

theorem normalize_eq_steps (t : Table) (hrow : t.rows ≠ []) (hcol : t.cols ≠ []) :
    normalize t =
      pinStep (textStep "district" (textStep "state" (dateStep (renameCols t)))) := by
  unfold normalize
  rw [if_neg]
  simp [hrow, hcol]

theorem normalize_rows_length (t : Table) :
    (normalize t).rows.length = t.rows.length := by
  unfold normalize
  by_cases h : t.rows.isEmpty || t.cols.isEmpty
  · rw [if_pos h]
  · rw [if_neg h, pinStep_rows_length, textStep_rows_length, textStep_rows_length,
      dateStep_rows_length]
    rfl

theorem normalize_WF {t : Table} (hwf : t.WF) : (normalize t).WF := by
  unfold normalize
  by_cases h : t.rows.isEmpty || t.cols.isEmpty
  · rw [if_pos h]; exact hwf
  · rw [if_neg h]
    exact pinStep_WF (textStep_WF _ (textStep_WF _ (dateStep_WF (renameCols_WF hwf))))

/- ### Claim C6 -/

/-- C6 (amended): for a row whose date value fails to parse, `normalize`
sets the row's date to null without raising and sets its `month` to the
literal placeholder string "NaT" (not to null, as the spec claims), and the
inclusive date-range filter downstream excludes the row for every range. -/
theorem unparsable_date_null_and_filtered (t : Table) (hrow : t.rows ≠ [])
    (hcol : t.cols ≠ []) (hwf : t.WF) (hdate : "date" ∈ t.cols.map cleanName)
    (i : Nat) (hi : i < t.rows.length)
    (hfail : toDatetimeCell (getCell (t.cols.map cleanName) (t.rows.getD i []) "date")
      = Cell.null) :
    getCell (normalize t).cols ((normalize t).rows.getD i []) "date" = Cell.null ∧
    getCell (normalize t).cols ((normalize t).rows.getD i []) "month" =
      Cell.str "NaT" ∧
    ∀ lo hi2 f, filterDateRange (normalize t) lo hi2 = some f →
      (normalize t).rows.getD i [] ∉ f.rows := by
  have hwf1 : (renameCols t).WF := renameCols_WF hwf
  have hwfd : (dateStep (renameCols t)).WF := dateStep_WF hwf1
  have hwfs : (textStep "state" (dateStep (renameCols t))).WF := textStep_WF _ hwfd
  have hwfsd : (textStep "district" (textStep "state" (dateStep (renameCols t)))).WF :=
    textStep_WF _ hwfs
  have hl1 : i < (renameCols t).rows.length := hi
  have hld : i < (dateStep (renameCols t)).rows.length := by
    rw [dateStep_rows_length]; exact hl1
  have hls : i < (textStep "state" (dateStep (renameCols t))).rows.length := by
    rw [textStep_rows_length]; exact hld
  have hlsd : i <
      (textStep "district" (textStep "state" (dateStep (renameCols t)))).rows.length := by
    rw [textStep_rows_length]; exact hls
  have hdate1 : "date" ∈ (renameCols t).cols := hdate
  have hdcell : getCell (normalize t).cols ((normalize t).rows.getD i []) "date" =
      Cell.null := by
    rw [normalize_eq_steps t hrow hcol,
      getCell_pinStep_ne _ i (by decide),
      getCell_textStep_ne _ _ i (by decide),
      getCell_textStep_ne _ _ i (by decide),
      getCell_dateStep_date _ i hwf1 hl1 hdate1]
    exact hfail
  refine ⟨hdcell, ?_, ?_⟩
  · rw [normalize_eq_steps t hrow hcol,
      getCell_pinStep_ne _ i (by decide),
      getCell_textStep_ne _ _ i (by decide),
      getCell_textStep_ne _ _ i (by decide),
      getCell_dateStep_month _ i hwf1 hl1 hdate1]
    have hfail2 : toDatetimeCell
        (getCell (renameCols t).cols ((renameCols t).rows.getD i []) "date") =
          Cell.null := hfail
    rw [hfail2]
    rfl
  · intro lo hi2 f hf hmem
    unfold filterDateRange at hf
    by_cases hdc : (colIdx (normalize t).cols "date").isSome
    · rw [if_pos hdc] at hf
      obtain rfl := Option.some.inj hf
      have := (List.mem_filter.mp hmem).2
      rw [hdcell] at this
      simp at this
    · rw [if_neg hdc] at hf
      cases hf

/-- C6 witness: the concrete unparsable date "hello" yields a null date and
the month placeholder "NaT". -/
theorem unparsable_date_null_and_filtered_spot :
    badDateT.rows ≠ [] ∧ badDateT.cols ≠ [] ∧ badDateT.WF ∧
    "date" ∈ badDateT.cols.map cleanName ∧ 0 < badDateT.rows.length ∧
    toDatetimeCell
      (getCell (badDateT.cols.map cleanName) (badDateT.rows.getD 0 []) "date") =
        Cell.null ∧
    getCell (normalize badDateT).cols ((normalize badDateT).rows.getD 0 []) "month" =
      Cell.str "NaT" :=
  ⟨by decide, by decide, by decide, by decide, by decide, by decide,
    (unparsable_date_null_and_filtered badDateT (by decide) (by decide) (by decide)
      (by decide) 0 (by decide) (by decide)).2.1⟩

/- ### Groupby lemmas -/

theorem mem_tableKeys {t : Table} {ks : List String} {k : List Cell} :
    k ∈ tableKeys t ks ↔
      ((∃ r ∈ t.rows, keyCells t.cols r ks = k) ∧ Cell.null ∉ k) := by
  unfold tableKeys
  rw [List.mem_dedup, List.mem_filter, List.mem_map]
  simp

theorem tableKeys_nodup (t : Table) (ks : List String) :
    (tableKeys t ks).Nodup := List.nodup_dedup _

theorem tableKeys_nonnull {t : Table} {ks : List String} {k : List Cell}
    (h : k ∈ tableKeys t ks) : Cell.null ∉ k := (mem_tableKeys.mp h).2

theorem keyCells_length (cols : List String) (r : List Cell) (ks : List String) :
    (keyCells cols r ks).length = ks.length := List.length_map _ _

theorem tableKeys_key_length {t : Table} {ks : List String} {k : List Cell}
    (h : k ∈ tableKeys t ks) : k.length = ks.length := by
  obtain ⟨⟨r, _, rfl⟩, _⟩ := mem_tableKeys.mp h
  exact keyCells_length _ _ _

theorem sumAt_eq_zero {t : Table} {ks : List String} {k : List Cell} (m : String)
    (hnn : Cell.null ∉ k) (h : k ∉ tableKeys t ks) : sumAt t ks k m = 0 := by
  unfold sumAt
  have hfil : t.rows.filter (fun r => decide (keyCells t.cols r ks = k)) = [] := by
    rw [List.filter_eq_nil_iff]
    intro r hr hk
    exact h (mem_tableKeys.mpr ⟨⟨r, hr, of_decide_eq_true hk⟩, hnn⟩)
  rw [hfil]
  rfl

theorem groupbySum_eq {t : Table} {ks : List String} {m : String}
    (hks : ∀ c ∈ ks, c ∈ t.cols) (hm : m ∈ t.cols) :
    groupbySum t ks m = some ⟨ks ++ [m],
      (tableKeys t ks).map (fun k => k ++ [Cell.num (sumAt t ks k m)])⟩ := by
  unfold groupbySum
  rw [if_pos]
  rw [Bool.and_eq_true, List.all_eq_true]
  exact ⟨fun c hc => (colIdx_isSome_iff _ _).mpr (hks c hc),
    (colIdx_isSome_iff _ _).mpr hm⟩

theorem countP_eq_zero_of_not_mem {α : Type} [DecidableEq α] {K : List α}
    {k : α} (hk : k ∉ K) : K.countP (fun x => decide (x = k)) = 0 := by
  rw [List.countP_eq_zero]
  intro a ha
  simp only [decide_eq_true_eq]
  intro hh
  exact hk (hh ▸ ha)

theorem countP_eq_one_of_nodup_mem {α : Type} [DecidableEq α] {K : List α}
    (hnd : K.Nodup) {k : α} (hk : k ∈ K) :
    K.countP (fun x => decide (x = k)) = 1 := by
  induction K with
  | nil => simp at hk
  | cons a as ih =>
    rw [List.countP_cons]
    by_cases hak : a = k
    · subst hak
      have hnotin : a ∉ as := (List.nodup_cons.mp hnd).1
      rw [countP_eq_zero_of_not_mem hnotin]
      simp
    · have hkas : k ∈ as := by
        rcases List.mem_cons.mp hk with h1 | h1
        · exact absurd h1.symm hak
        · exact h1
      rw [ih (List.nodup_cons.mp hnd).2 hkas]
      simp [hak]

theorem countP_key_of_nodup_map {K : List (List Cell)} {nk : Nat}
    (m0 : List Cell → List Cell)
    (hlen : ∀ k ∈ K, k.length = nk) (hnd : K.Nodup) (k : List Cell) :
    (K.map (fun k0 => k0 ++ m0 k0)).countP
        (fun r => decide (r.take nk = k)) =
      if k ∈ K then 1 else 0 := by
  rw [List.countP_map]
  have hcong : K.countP ((fun r => decide (r.take nk = k)) ∘ (fun k0 => k0 ++ m0 k0)) =
      K.countP (fun k0 => decide (k0 = k)) := by
    refine List.countP_congr (fun k0 hk0 => ?_)
    have htk : (k0 ++ m0 k0).take nk = k0 := List.take_left' (hlen k0 hk0)
    simp [Function.comp, htk]
  rw [hcong]
  by_cases hk : k ∈ K
  · rw [if_pos hk]
    exact countP_eq_one_of_nodup_mem hnd hk
  · rw [if_neg hk]
    exact countP_eq_zero_of_not_mem hk

/- ### Claim C9 -/

/-- C9 (amended): the per-category grouping collapses the rows sharing one
fully non-null composite key into exactly one output row whose metric is
the sum of their metrics; rows whose key contains a null field are dropped
by the grouping (pandas dropna default) rather than collapsed. -/
theorem groupby_collapses_duplicates (t : Table) (m : String)
    (hks : ∀ c ∈ keyNames, c ∈ t.cols) (hm : m ∈ t.cols) :
    ∃ g, groupbySum t keyNames m = some g ∧
      g.rows = (tableKeys t keyNames).map
        (fun k => k ++ [Cell.num (sumAt t keyNames k m)]) ∧
      (∀ k, Cell.null ∉ k →
        g.rows.countP (fun r => decide (r.take keyNames.length = k)) =
          if k ∈ tableKeys t keyNames then 1 else 0) ∧
      (∀ k, k ∈ tableKeys t keyNames ↔
        ((∃ r ∈ t.rows, keyCells t.cols r keyNames = k) ∧ Cell.null ∉ k)) := by
  refine ⟨_, groupbySum_eq hks hm, rfl, fun k _ => ?_, fun k => mem_tableKeys⟩
  exact countP_key_of_nodup_map _ (fun k0 hk0 => tableKeys_key_length hk0)
    (tableKeys_nodup _ _) k

/-- C9 witness: two concrete rows with the same non-null key and metrics 3
and 5 are collapsed into one grouped row, with summed metric 8. -/
theorem groupby_collapses_duplicates_spot :
    (∀ c ∈ keyNames, c ∈ dupKeyT.cols) ∧ "m" ∈ dupKeyT.cols ∧
    sumAt dupKeyT keyNames
      (keyCells dupKeyT.cols (dupKeyT.rows.getD 0 []) keyNames) "m" = mkRat 8 1 ∧
    (∃ g, groupbySum dupKeyT keyNames "m" = some g ∧
      g.rows = (tableKeys dupKeyT keyNames).map
        (fun k => k ++ [Cell.num (sumAt dupKeyT keyNames k "m")]) ∧
      (∀ k, Cell.null ∉ k →
        g.rows.countP (fun r => decide (r.take keyNames.length = k)) =
          if k ∈ tableKeys dupKeyT keyNames then 1 else 0) ∧
      (∀ k, k ∈ tableKeys dupKeyT keyNames ↔
        ((∃ r ∈ dupKeyT.rows, keyCells dupKeyT.cols r keyNames = k) ∧
          Cell.null ∉ k))) :=
  ⟨by decide, by decide, by decide,
    groupby_collapses_duplicates dupKeyT "m" (by decide) (by decide)⟩

/-- C9 counterexample: two rows sharing a composite key whose date field is
null are not collapsed into a summed row — the grouping drops them and the
grouped output is empty. -/
theorem groupby_drops_null_keys :
    keyCells nullKeyT.cols (nullKeyT.rows.getD 0 []) keyNames =
      keyCells nullKeyT.cols (nullKeyT.rows.getD 1 []) keyNames ∧
    getCell nullKeyT.cols (nullKeyT.rows.getD 0 []) "m" = intCell 3 ∧
    getCell nullKeyT.cols (nullKeyT.rows.getD 1 []) "m" = intCell 5 ∧
    groupbySum nullKeyT keyNames "m" = some ⟨keyNames ++ ["m"], []⟩ := by decide

/- ### Character-level idempotence lemmas -/

theorem charToNat_ofNat {n : Nat} (h : n.isValidChar) : (Char.ofNat n).toNat = n := by
  unfold Char.ofNat
  rw [dif_pos h]
  rfl

theorem toLower_idem (c : Char) : (Char.toLower c).toLower = c.toLower := by
  unfold Char.toLower
  by_cases h : c.toNat ≥ 65 ∧ c.toNat ≤ 90
  · rw [if_pos h]
    have hv : (c.toNat + 32).isValidChar := Or.inl (by omega)
    have ht : (Char.ofNat (c.toNat + 32)).toNat = c.toNat + 32 := charToNat_ofNat hv
    rw [if_neg (by rw [ht]; omega)]
  · rw [if_neg h, if_neg h]

theorem ws_false_of_toNat {c : Char} (h32 : c.toNat ≠ 32) (h9 : c.toNat ≠ 9)
    (h13 : c.toNat ≠ 13) (h10 : c.toNat ≠ 10) : c.isWhitespace = false := by
  unfold Char.isWhitespace
  have e32 : (c = ' ') = False := by
    simp only [eq_iff_iff, iff_false]
    exact fun hh => h32 (by rw [hh]; rfl)
  have e9 : (c = '\t') = False := by
    simp only [eq_iff_iff, iff_false]
    exact fun hh => h9 (by rw [hh]; rfl)
  have e13 : (c = '\r') = False := by
    simp only [eq_iff_iff, iff_false]
    exact fun hh => h13 (by rw [hh]; rfl)
  have e10 : (c = '\n') = False := by
    simp only [eq_iff_iff, iff_false]
    exact fun hh => h10 (by rw [hh]; rfl)
  simp [e32, e9, e13, e10]

theorem toLower_ws (c : Char) : (Char.toLower c).isWhitespace = c.isWhitespace := by
  unfold Char.toLower
  by_cases h : c.toNat ≥ 65 ∧ c.toNat ≤ 90
  · rw [if_pos h]
    have hv : (c.toNat + 32).isValidChar := Or.inl (by omega)
    have ht : (Char.ofNat (c.toNat + 32)).toNat = c.toNat + 32 := charToNat_ofNat hv
    rw [ws_false_of_toNat (by omega) (by omega) (by omega) (by omega),
      ws_false_of_toNat (c := c) (by omega) (by omega) (by omega) (by omega)]
  · rw [if_neg h]

theorem cleanChar_spec (c : Char) :
    (cleanChar c = '_' ∧ (c.toLower = ' ' ∨ c.toLower = '-')) ∨
    (cleanChar c = c.toLower ∧ c.toLower ≠ ' ' ∧ c.toLower ≠ '-') := by
  unfold cleanChar
  by_cases h1 : c.toLower = ' '
  · rw [if_pos h1, if_neg (by decide)]
    exact Or.inl ⟨rfl, Or.inl h1⟩
  · rw [if_neg h1]
    by_cases h2 : c.toLower = '-'
    · rw [if_pos h2]
      exact Or.inl ⟨rfl, Or.inr h2⟩
    · rw [if_neg h2]
      exact Or.inr ⟨rfl, h1, h2⟩

theorem cleanChar_ne_space (c : Char) : cleanChar c ≠ ' ' := by
  rcases cleanChar_spec c with h | h
  · rw [h.1]; decide
  · rw [h.1]; exact h.2.1

theorem cleanChar_ne_hyphen (c : Char) : cleanChar c ≠ '-' := by
  rcases cleanChar_spec c with h | h
  · rw [h.1]; decide
  · rw [h.1]; exact h.2.2

theorem cleanChar_toLower (c : Char) : cleanChar (Char.toLower c) = cleanChar c := by
  unfold cleanChar
  rw [toLower_idem]

theorem cleanChar_cases (c : Char) :
    cleanChar c = '_' ∨ cleanChar c = c.toLower := by
  rcases cleanChar_spec c with h | h
  · exact Or.inl h.1
  · exact Or.inr h.1

theorem cleanChar_idem (c : Char) : cleanChar (cleanChar c) = cleanChar c := by
  rcases cleanChar_cases c with h | h
  · rw [h]; decide
  · rw [h, cleanChar_toLower]
    exact h.symm ▸ rfl

theorem cleanChar_ws {c : Char} (h : c.isWhitespace = false) :
    (cleanChar c).isWhitespace = false := by
  rcases cleanChar_cases c with hh | hh
  · rw [hh]; decide
  · rw [hh, toLower_ws]; exact h

/- ### Trim idempotence lemmas -/

theorem head?_dropWhile_not {α : Type} (p : α → Bool) (l : List α) {hd : α}
    (h : (l.dropWhile p).head? = some hd) : p hd = false := by
  induction l with
  | nil => simp at h
  | cons c rest ih =>
    rw [List.dropWhile_cons] at h
    by_cases hp : p c = true
    · rw [if_pos hp] at h; exact ih h
    · rw [if_neg hp] at h
      have : c = hd := by simpa using h
      subst this
      simpa using hp

theorem dropWhile_eq_self_of_head? {α : Type} (p : α → Bool) (l : List α)
    (h : ∀ hd, l.head? = some hd → p hd = false) : l.dropWhile p = l := by
  cases l with
  | nil => rfl
  | cons c rest =>
    rw [List.dropWhile_cons, if_neg]
    simp [h c rfl]

theorem getLast?_dropWhile_of_ne_nil {α : Type} (p : α → Bool) (l : List α)
    (h : l.dropWhile p ≠ []) : (l.dropWhile p).getLast? = l.getLast? := by
  induction l with
  | nil => simp at h
  | cons c rest ih =>
    rw [List.dropWhile_cons] at h ⊢
    by_cases hp : p c = true
    · rw [if_pos hp] at h ⊢
      rw [ih h]
      have hr : rest ≠ [] := by
        intro hh
        subst hh
        simp [List.dropWhile] at h
      obtain ⟨a, as, rfl⟩ := List.exists_cons_of_ne_nil hr
      rw [List.getLast?_cons_cons]
    · rw [if_neg hp]

theorem trimChars_head? (l : List Char) {hd : Char}
    (h : (trimChars l).head? = some hd) : hd.isWhitespace = false := by
  unfold trimChars at h
  rw [List.head?_reverse] at h
  have hne : ((l.dropWhile Char.isWhitespace).reverse.dropWhile Char.isWhitespace)
      ≠ [] := by
    intro hh
    rw [hh] at h
    simp at h
  rw [getLast?_dropWhile_of_ne_nil _ _ hne, List.getLast?_reverse] at h
  exact head?_dropWhile_not _ _ h

theorem trimChars_getLast? (l : List Char) {lt : Char}
    (h : (trimChars l).getLast? = some lt) : lt.isWhitespace = false := by
  unfold trimChars at h
  rw [List.getLast?_reverse] at h
  exact head?_dropWhile_not _ _ h

theorem trimChars_eq_self (l : List Char)
    (h1 : ∀ hd, l.head? = some hd → hd.isWhitespace = false)
    (h2 : ∀ lt, l.getLast? = some lt → lt.isWhitespace = false) :
    trimChars l = l := by
  unfold trimChars
  rw [dropWhile_eq_self_of_head? _ _ h1,
    dropWhile_eq_self_of_head? _ _
      (fun hd hh => h2 hd (by rwa [List.head?_reverse] at hh)),
    List.reverse_reverse]

theorem trimChars_idem (l : List Char) : trimChars (trimChars l) = trimChars l :=
  trimChars_eq_self _ (fun _ h => trimChars_head? l h)
    (fun _ h => trimChars_getLast? l h)

theorem trimStr_idem (s : String) : trimStr (trimStr s) = trimStr s := by
  unfold trimStr
  rw [show (String.mk (trimChars s.data)).data = trimChars s.data from rfl,
    trimChars_idem]

/- ### Column-name cleanup idempotence -/

theorem cleanName_eq_map (s : String) :
    cleanName s = ⟨(trimChars s.data).map cleanChar⟩ := by
  unfold cleanName replChar
  rw [List.map_map, List.map_map]
  refine congrArg String.mk (List.map_congr_left fun c _ => ?_)
  rfl

theorem cleanName_idem (s : String) : cleanName (cleanName s) = cleanName s := by
  rw [cleanName_eq_map s, cleanName_eq_map]
  have hdata : (String.mk ((trimChars s.data).map cleanChar)).data =
      (trimChars s.data).map cleanChar := rfl
  rw [hdata]
  have hts : trimChars ((trimChars s.data).map cleanChar) =
      (trimChars s.data).map cleanChar := by
    refine trimChars_eq_self _ (fun hd hh => ?_) (fun lt hh => ?_)
    · rw [List.head?_map] at hh
      cases hhd : (trimChars s.data).head? with
      | none => rw [hhd] at hh; simp at hh
      | some c =>
        rw [hhd] at hh
        simp only [Option.map_some'] at hh
        cases hh
        exact cleanChar_ws (trimChars_head? s.data hhd)
    · rw [List.getLast?_map] at hh
      cases hhd : (trimChars s.data).getLast? with
      | none => rw [hhd] at hh; simp at hh
      | some c =>
        rw [hhd] at hh
        simp only [Option.map_some'] at hh
        cases hh
        exact cleanChar_ws (trimChars_getLast? s.data hhd)
  rw [hts, List.map_map]
  have hcongr : List.map (cleanChar ∘ cleanChar) (trimChars s.data) =
      List.map cleanChar (trimChars s.data) :=
    List.map_congr_left fun c _ => by
      simp only [Function.comp_apply]
      exact cleanChar_idem c
  rw [hcongr]

/- ### Cell-level idempotence lemmas -/

theorem toDatetimeCell_idem (x : Cell) :
    toDatetimeCell (toDatetimeCell x) = toDatetimeCell x := by
  cases x with
  | num q => rfl
  | null => rfl
  | date y m d => rfl
  | str s =>
    cases hp : parseDate s with
    | none => simp [toDatetimeCell, hp]
    | some p =>
      obtain ⟨y, m, d⟩ := p
      simp [toDatetimeCell, hp]

theorem textCell_idem (x : Cell) :
    Cell.str (trimStr (astypeStr (Cell.str (trimStr (astypeStr x))))) =
      Cell.str (trimStr (astypeStr x)) := by
  show Cell.str (trimStr (trimStr (astypeStr x))) = _
  rw [trimStr_idem]

/- ### Structural lemmas for normalize idempotence -/

theorem setCol_cols (t : Table) (c : String) (vals : List Cell) :
    (setCol t c vals).cols = if c ∈ t.cols then t.cols else t.cols ++ [c] := by
  unfold setCol
  cases hj : colIdx t.cols c with
  | some j =>
    rw [if_pos ((colIdx_isSome_iff _ _).mp (by rw [hj]; rfl))]
  | none =>
    rw [if_neg ((colIdx_eq_none_iff _ _).mp hj)]

theorem dateStep_cols (t : Table) :
    (dateStep t).cols = if "date" ∈ t.cols then
      (if "month" ∈ t.cols then t.cols else t.cols ++ ["month"]) else t.cols := by
  unfold dateStep
  by_cases hd : (colIdx t.cols "date").isSome
  · rw [if_pos hd, if_pos ((colIdx_isSome_iff _ _).mp hd)]
    simp only
    rw [setCol_cols, mapCol_cols]
  · rw [if_neg hd, if_neg (fun hh => hd ((colIdx_isSome_iff _ _).mpr hh))]

theorem dateStep_noop {t : Table} (hd : "date" ∉ t.cols) : dateStep t = t := by
  unfold dateStep
  rw [if_neg (fun hh => hd ((colIdx_isSome_iff _ _).mp hh))]

theorem dateStep_month_mem {t : Table} (hd : "date" ∈ t.cols) :
    "month" ∈ (dateStep t).cols := by
  rw [dateStep_cols, if_pos hd]
  by_cases hm : "month" ∈ t.cols
  · rw [if_pos hm]; exact hm
  · rw [if_neg hm]; simp

theorem dateStep_cols_mono {t : Table} {c' : String} (h : c' ∈ t.cols) :
    c' ∈ (dateStep t).cols := by
  rw [dateStep_cols]
  by_cases hd : "date" ∈ t.cols
  · rw [if_pos hd]
    by_cases hm : "month" ∈ t.cols
    · rw [if_pos hm]; exact h
    · rw [if_neg hm]; simp [h]
  · rw [if_neg hd]; exact h

theorem dateStep_mem_iff (t : Table) {c : String} (hne : c ≠ "month") :
    c ∈ (dateStep t).cols ↔ c ∈ t.cols := by
  rw [dateStep_cols]
  by_cases hd : "date" ∈ t.cols
  · rw [if_pos hd]
    by_cases hm : "month" ∈ t.cols
    · rw [if_pos hm]
    · rw [if_neg hm]; simp [hne]
  · rw [if_neg hd]

theorem dateStep_nodup {t : Table} (hnd : t.cols.Nodup) :
    (dateStep t).cols.Nodup := by
  rw [dateStep_cols]
  by_cases hd : "date" ∈ t.cols
  · rw [if_pos hd]
    by_cases hm : "month" ∈ t.cols
    · rw [if_pos hm]; exact hnd
    · rw [if_neg hm]
      rw [List.nodup_append]
      refine ⟨hnd, List.nodup_singleton _, ?_⟩
      intro x hx hx1
      simp at hx1
      subst hx1
      exact hm hx
  · rw [if_neg hd]; exact hnd

theorem table_ext {a b : Table} (hc : a.cols = b.cols) (hnd : a.cols.Nodup)
    (hwa : a.WF) (hwb : b.WF) (hlen : a.rows.length = b.rows.length)
    (h : ∀ i < a.rows.length, ∀ c ∈ a.cols,
      getCell a.cols (a.rows.getD i []) c = getCell b.cols (b.rows.getD i []) c) :
    a = b := by
  obtain ⟨ca, ra⟩ := a
  obtain ⟨cb, rb⟩ := b
  simp only at hc hlen h hnd hwa hwb
  subst hc
  have hrows : ra = rb := by
    refine List.ext_getElem hlen (fun i h1 h2 => ?_)
    refine List.ext_getElem ?_ (fun j hj1 hj2 => ?_)
    · rw [hwa _ (List.getElem_mem _), hwb _ (List.getElem_mem _)]
    · have hjc : j < ca.length := by
        rw [← hwa _ (List.getElem_mem _)]
        exact hj1
      have hcj := colIdx_nodup_get hnd j hjc
      have hh := h i h1 (ca.get ⟨j, hjc⟩) (List.get_mem _ _ _)
      rw [getCell_some _ hcj, getCell_some _ hcj] at hh
      rw [List.getD_eq_getElem _ _ h1, List.getD_eq_getElem _ _ h2] at hh
      rw [List.getD_eq_getElem _ _ hj1, List.getD_eq_getElem _ _ hj2] at hh
      exact hh
  rw [hrows]

/- ### Cell shapes produced by a normalize pass -/

theorem normalize_cell_date (t : Table) (hrow : t.rows ≠ []) (hcol : t.cols ≠ [])
    (hwf : t.WF) (i : Nat) (hi : i < t.rows.length)
    (hd : "date" ∈ (renameCols t).cols) :
    getCell (normalize t).cols ((normalize t).rows.getD i []) "date" =
      toDatetimeCell
        (getCell (renameCols t).cols ((renameCols t).rows.getD i []) "date") := by
  rw [normalize_eq_steps t hrow hcol,
    getCell_pinStep_ne _ i (by decide),
    getCell_textStep_ne _ _ i (by decide),
    getCell_textStep_ne _ _ i (by decide)]
  exact getCell_dateStep_date _ i (renameCols_WF hwf) hi hd

theorem normalize_cell_month (t : Table) (hrow : t.rows ≠ []) (hcol : t.cols ≠ [])
    (hwf : t.WF) (i : Nat) (hi : i < t.rows.length)
    (hd : "date" ∈ (renameCols t).cols) :
    getCell (normalize t).cols ((normalize t).rows.getD i []) "month" =
      monthCell (toDatetimeCell
        (getCell (renameCols t).cols ((renameCols t).rows.getD i []) "date")) := by
  rw [normalize_eq_steps t hrow hcol,
    getCell_pinStep_ne _ i (by decide),
    getCell_textStep_ne _ _ i (by decide),
    getCell_textStep_ne _ _ i (by decide)]
  exact getCell_dateStep_month _ i (renameCols_WF hwf) hi hd

theorem normalize_cell_state (t : Table) (hrow : t.rows ≠ []) (hcol : t.cols ≠ [])
    (hwf : t.WF) (i : Nat) (hi : i < t.rows.length)
    (hs : "state" ∈ (renameCols t).cols) :
    getCell (normalize t).cols ((normalize t).rows.getD i []) "state" =
      Cell.str (trimStr (astypeStr
        (getCell (renameCols t).cols ((renameCols t).rows.getD i []) "state"))) := by
  rw [normalize_eq_steps t hrow hcol,
    getCell_pinStep_ne _ i (by decide),
    getCell_textStep_ne _ _ i (by decide),
    getCell_textStep_self "state" _ i (dateStep_WF (renameCols_WF hwf))
      (by rw [dateStep_rows_length]; exact hi) (dateStep_cols_mono hs),
    getCell_dateStep_ne _ i (renameCols_WF hwf) hi (by decide) (by decide)]

theorem normalize_cell_district (t : Table) (hrow : t.rows ≠ []) (hcol : t.cols ≠ [])
    (hwf : t.WF) (i : Nat) (hi : i < t.rows.length)
    (hs : "district" ∈ (renameCols t).cols) :
    getCell (normalize t).cols ((normalize t).rows.getD i []) "district" =
      Cell.str (trimStr (astypeStr
        (getCell (renameCols t).cols ((renameCols t).rows.getD i []) "district"))) := by
  rw [normalize_eq_steps t hrow hcol,
    getCell_pinStep_ne _ i (by decide),
    getCell_textStep_self "district" _ i
      (textStep_WF _ (dateStep_WF (renameCols_WF hwf)))
      (by rw [textStep_rows_length, dateStep_rows_length]; exact hi)
      (by rw [textStep_cols]; exact dateStep_cols_mono hs),
    getCell_textStep_ne _ _ i (by decide),
    getCell_dateStep_ne _ i (renameCols_WF hwf) hi (by decide) (by decide)]

theorem normalize_cell_pin (t : Table) (hrow : t.rows ≠ []) (hcol : t.cols ≠ [])
    (hwf : t.WF) (i : Nat) (hi : i < t.rows.length)
    (hp : "pincode" ∈ (renameCols t).cols) :
    getCell (normalize t).cols ((normalize t).rows.getD i []) "pincode" =
      Cell.str (stripDot0 (astypeStr
        (getCell (renameCols t).cols ((renameCols t).rows.getD i []) "pincode"))) := by
  have hw3 : (textStep "district" (textStep "state" (dateStep (renameCols t)))).WF :=
    textStep_WF _ (textStep_WF _ (dateStep_WF (renameCols_WF hwf)))
  have hl3 : i <
      (textStep "district" (textStep "state" (dateStep (renameCols t)))).rows.length := by
    rw [textStep_rows_length, textStep_rows_length, dateStep_rows_length]
    exact hi
  have hm3 : "pincode" ∈
      (textStep "district" (textStep "state" (dateStep (renameCols t)))).cols := by
    rw [textStep_cols, textStep_cols]
    exact dateStep_cols_mono hp
  rw [normalize_eq_steps t hrow hcol,
    getCell_pinStep_self _ i hw3 hl3 hm3,
    getCell_textStep_ne _ _ i (by decide),
    getCell_textStep_ne _ _ i (by decide),
    getCell_dateStep_ne _ i (renameCols_WF hwf) hi (by decide) (by decide)]

theorem normalize_cell_other (t : Table) (hrow : t.rows ≠ []) (hcol : t.cols ≠ [])
    (hwf : t.WF) (i : Nat) (hi : i < t.rows.length) {c : String}
    (h1 : c ≠ "date") (h2 : c ≠ "month" ∨ "date" ∉ (renameCols t).cols)
    (h3 : c ≠ "state") (h4 : c ≠ "district") (h5 : c ≠ "pincode") :
    getCell (normalize t).cols ((normalize t).rows.getD i []) c =
      getCell (renameCols t).cols ((renameCols t).rows.getD i []) c := by
  rw [normalize_eq_steps t hrow hcol,
    getCell_pinStep_ne _ i h5,
    getCell_textStep_ne _ _ i h4,
    getCell_textStep_ne _ _ i h3]
  rcases h2 with h2 | h2
  · exact getCell_dateStep_ne _ i (renameCols_WF hwf) hi h1 h2
  · rw [dateStep_noop h2]

/- ### Claim C4 -/

/-- C4 (amended): `normalize` is idempotent on well-formed tables with
duplicate-free cleaned column names, provided the once-normalized pincode
values are fixed points of the ".0"-removal (true whenever they no longer
contain ".0", in particular for every numeric pincode); without that
proviso idempotence fails, since removing every ".0" can create a new ".0"
occurrence. -/
theorem normalize_idem (t : Table) (hwf : t.WF)
    (hnd : (t.cols.map cleanName).Nodup)
    (hpin : "pincode" ∈ t.cols.map cleanName → ∀ i < t.rows.length,
      Cell.str (stripDot0 (astypeStr
        (getCell (normalize t).cols ((normalize t).rows.getD i []) "pincode"))) =
        getCell (normalize t).cols ((normalize t).rows.getD i []) "pincode") :
    normalize (normalize t) = normalize t := by
  by_cases hempty : t.rows.isEmpty || t.cols.isEmpty
  · have h1 : normalize t = t := by unfold normalize; rw [if_pos hempty]
    rw [h1]
    exact h1
  · have hrow : t.rows ≠ [] := fun hh => hempty (by simp [hh])
    have hcol : t.cols ≠ [] := fun hh => hempty (by simp [hh])
    have hwfn : (normalize t).WF := normalize_WF hwf
    have hlenn : (normalize t).rows.length = t.rows.length := normalize_rows_length t
    have hrc : (renameCols t).cols = t.cols.map cleanName := rfl
    have hncols : (normalize t).cols = (dateStep (renameCols t)).cols := by
      rw [normalize_eq_steps t hrow hcol, pinStep_cols, textStep_cols, textStep_cols]
    have hndren : (renameCols t).cols.Nodup := hnd
    have hndn : (normalize t).cols.Nodup := by
      rw [hncols]
      exact dateStep_nodup hndren
    have hmapid : (t.cols.map cleanName).map cleanName = t.cols.map cleanName := by
      rw [List.map_map]
      exact List.map_congr_left fun c _ => by
        simp only [Function.comp_apply]
        exact cleanName_idem c
    have hclean_n : (normalize t).cols.map cleanName = (normalize t).cols := by
      rw [hncols, dateStep_cols, hrc]
      by_cases hd : "date" ∈ t.cols.map cleanName
      · rw [if_pos hd]
        by_cases hm : "month" ∈ t.cols.map cleanName
        · rw [if_pos hm]
          exact hmapid
        · rw [if_neg hm, List.map_append, hmapid]
          have hmon : ["month"].map cleanName = ["month"] := by decide
          rw [hmon]
      · rw [if_neg hd]
        exact hmapid
    have hrenameN : renameCols (normalize t) = normalize t := by
      show (⟨(normalize t).cols.map cleanName, (normalize t).rows⟩ : Table) =
        normalize t
      rw [hclean_n]
    have hrown : (normalize t).rows ≠ [] := by
      intro hh
      apply hrow
      have h0 : t.rows.length = 0 := by rw [← hlenn, hh]; rfl
      exact List.length_eq_zero.mp h0
    have hcoln : (normalize t).cols ≠ [] := by
      obtain ⟨c0, hc0⟩ := List.exists_mem_of_ne_nil t.cols hcol
      have hmem : cleanName c0 ∈ (normalize t).cols := by
        rw [hncols]
        exact dateStep_cols_mono (List.mem_map_of_mem _ hc0)
      intro hh
      rw [hh] at hmem
      exact List.not_mem_nil _ hmem
    have hsteps2 : normalize (normalize t) =
        pinStep (textStep "district" (textStep "state" (dateStep (normalize t)))) := by
      rw [normalize_eq_steps _ hrown hcoln, hrenameN]
    have hcols2 : (normalize (normalize t)).cols = (normalize t).cols := by
      rw [hsteps2, pinStep_cols, textStep_cols, textStep_cols, dateStep_cols]
      by_cases hd : "date" ∈ (normalize t).cols
      · rw [if_pos hd]
        have hd0 : "date" ∈ (renameCols t).cols := by
          rw [hncols] at hd
          exact (dateStep_mem_iff _ (by decide)).mp hd
        have hm : "month" ∈ (normalize t).cols := by
          rw [hncols]
          exact dateStep_month_mem hd0
        rw [if_pos hm]
      · rw [if_neg hd]
    refine table_ext hcols2 (by rw [hcols2]; exact hndn) (normalize_WF hwfn) hwfn
      (normalize_rows_length _) ?_
    intro i hi c hc
    rw [hcols2] at hc
    have hin : i < (normalize t).rows.length := by
      rw [normalize_rows_length] at hi
      exact hi
    have hit : i < t.rows.length := by rw [← hlenn]; exact hin
    by_cases hcd : c = "date"
    · subst hcd
      have hdn' : "date" ∈ (renameCols (normalize t)).cols := by
        rw [hrenameN]; exact hc
      have hd0 : "date" ∈ (renameCols t).cols := by
        rw [hncols] at hc
        exact (dateStep_mem_iff _ (by decide)).mp hc
      rw [normalize_cell_date (normalize t) hrown hcoln hwfn i hin hdn', hrenameN,
        normalize_cell_date t hrow hcol hwf i hit hd0, toDatetimeCell_idem]
    by_cases hcm : c = "month"
    · subst hcm
      by_cases hdn : "date" ∈ (normalize t).cols
      · have hdn' : "date" ∈ (renameCols (normalize t)).cols := by
          rw [hrenameN]; exact hdn
        have hd0 : "date" ∈ (renameCols t).cols := by
          rw [hncols] at hdn
          exact (dateStep_mem_iff _ (by decide)).mp hdn
        rw [normalize_cell_month (normalize t) hrown hcoln hwfn i hin hdn', hrenameN,
          normalize_cell_date t hrow hcol hwf i hit hd0,
          normalize_cell_month t hrow hcol hwf i hit hd0, toDatetimeCell_idem]
      · have hdn' : "date" ∉ (renameCols (normalize t)).cols := by
          rw [hrenameN]; exact hdn
        rw [normalize_cell_other (normalize t) hrown hcoln hwfn i hin
          (by decide) (Or.inr hdn') (by decide) (by decide) (by decide), hrenameN]
    by_cases hcs : c = "state"
    · subst hcs
      have hs' : "state" ∈ (renameCols (normalize t)).cols := by
        rw [hrenameN]; exact hc
      have hs0 : "state" ∈ (renameCols t).cols := by
        rw [hncols] at hc
        exact (dateStep_mem_iff _ (by decide)).mp hc
      rw [normalize_cell_state (normalize t) hrown hcoln hwfn i hin hs', hrenameN,
        normalize_cell_state t hrow hcol hwf i hit hs0]
      exact textCell_idem _
    by_cases hcdd : c = "district"
    · subst hcdd
      have hs' : "district" ∈ (renameCols (normalize t)).cols := by
        rw [hrenameN]; exact hc
      have hs0 : "district" ∈ (renameCols t).cols := by
        rw [hncols] at hc
        exact (dateStep_mem_iff _ (by decide)).mp hc
      rw [normalize_cell_district (normalize t) hrown hcoln hwfn i hin hs', hrenameN,
        normalize_cell_district t hrow hcol hwf i hit hs0]
      exact textCell_idem _
    by_cases hcp : c = "pincode"
    · subst hcp
      have hp' : "pincode" ∈ (renameCols (normalize t)).cols := by
        rw [hrenameN]; exact hc
      have hp0 : "pincode" ∈ (renameCols t).cols := by
        rw [hncols] at hc
        exact (dateStep_mem_iff _ (by decide)).mp hc
      rw [normalize_cell_pin (normalize t) hrown hcoln hwfn i hin hp', hrenameN]
      exact hpin hp0 i hit
    · rw [normalize_cell_other (normalize t) hrown hcoln hwfn i hin
        hcd (Or.inl hcm) hcs hcdd hcp, hrenameN]

/-- C4 witness: a raw table in the shape of the repository's data — string
date, padded state, float-artifact pincode — normalizes idempotently. -/
theorem normalize_idem_spot :
    rawT.WF ∧ (rawT.cols.map cleanName).Nodup ∧
    ("pincode" ∈ rawT.cols.map cleanName → ∀ i < rawT.rows.length,
      Cell.str (stripDot0 (astypeStr
        (getCell (normalize rawT).cols ((normalize rawT).rows.getD i []) "pincode"))) =
        getCell (normalize rawT).cols ((normalize rawT).rows.getD i []) "pincode") ∧
    normalize (normalize rawT) = normalize rawT :=
  ⟨by decide, by decide, by decide,
    normalize_idem rawT (by decide) (by decide) (by decide)⟩

/-- C4 counterexample: a pincode "..00" becomes ".0" under the first
normalization and "" under the second, so normalize applied to its own
output does not yield the same table. -/
theorem normalize_not_idempotent :
    normalize pinChainT = ⟨["pincode"], [[Cell.str ".0"]]⟩ ∧
    normalize (normalize pinChainT) = ⟨["pincode"], [[Cell.str ""]]⟩ ∧
    normalize (normalize pinChainT) ≠ normalize pinChainT := by decide

/- ### List helpers for the outer-merge characterization -/

theorem flatMap_map_comp {α β γ : Type} (f : α → β) (g : β → List γ)
    (l : List α) : (l.map f).flatMap g = l.flatMap (fun x => g (f x)) := by
  induction l with
  | nil => rfl
  | cons a as ih => simp [List.flatMap_cons, ih]

theorem flatMap_eq_map_of_single {α β : Type} {l : List α} {F : α → List β}
    {h : α → β} (hp : ∀ x ∈ l, F x = [h x]) : l.flatMap F = l.map h := by
  induction l with
  | nil => rfl
  | cons a as ih =>
    rw [List.flatMap_cons, hp a (List.mem_cons_self _ _),
      ih (fun x hx => hp x (List.mem_cons_of_mem _ hx))]
    rfl

theorem filter_eq_of_nodup {α : Type} [DecidableEq α] {K : List α}
    (hnd : K.Nodup) (k : α) :
    K.filter (fun x => decide (x = k)) = if k ∈ K then [k] else [] := by
  induction K with
  | nil => simp
  | cons a as ih =>
    rw [List.filter_cons]
    by_cases hak : a = k
    · subst hak
      have hnotin : a ∉ as := (List.nodup_cons.mp hnd).1
      rw [if_pos (by simp), if_pos (List.mem_cons_self _ _)]
      have hfil : as.filter (fun x => decide (x = a)) = [] := by
        rw [List.filter_eq_nil_iff]
        intro x hx
        simp only [decide_eq_true_eq]
        intro hh
        exact hnotin (hh ▸ hx)
      rw [hfil]
    · rw [if_neg (by simpa using hak), ih (List.nodup_cons.mp hnd).2]
      by_cases hk : k ∈ as
      · rw [if_pos hk, if_pos (List.mem_cons_of_mem _ hk)]
      · rw [if_neg hk, if_neg ?hcons]
        case hcons =>
          intro hh
          rcases List.mem_cons.mp hh with h1 | h1
          · exact hak h1.symm
          · exact hk h1

theorem any_eq_decide_mem {α : Type} [DecidableEq α] (K : List α) (k : α) :
    K.any (fun x => decide (x = k)) = decide (k ∈ K) := by
  induction K with
  | nil => simp
  | cons a as ih =>
    rw [List.any_cons, ih]
    by_cases hak : a = k
    · subst hak
      simp
    · rw [decide_eq_false hak, Bool.false_or]
      refine decide_eq_decide.mpr ?_
      constructor
      · exact fun hh => List.mem_cons_of_mem _ hh
      · intro hh
        rcases List.mem_cons.mp hh with h1 | h1
        · exact absurd h1.symm hak
        · exact h1

theorem zipWith_self_map {α β γ : Type} (f : α → β → γ) (g : α → β)
    (l : List α) : List.zipWith f l (l.map g) = l.map (fun x => f x (g x)) := by
  induction l with
  | nil => rfl
  | cons a as ih => simp [List.zipWith_cons_cons, ih]

theorem fillRow_nonnull {k : List Cell} (h : Cell.null ∉ k) :
    k.map fillZero = k := by
  have hmap : k.map fillZero = k.map id :=
    List.map_congr_left fun c hc => by
      unfold fillZero
      rw [if_neg (fun hh => h (by rw [← hh]; exact hc))]
      rfl
  rw [hmap, List.map_id]

theorem sumAt_den_one {t : Table} {ks : List String} {m : String}
    (h : ∀ r ∈ t.rows, (cellNum (getCell t.cols r m)).den = 1) (k : List Cell) :
    (sumAt t ks k m).den = 1 := by
  unfold sumAt
  refine qsum_den_one (fun q hq => ?_)
  obtain ⟨r, hr, rfl⟩ := List.mem_map.mp hq
  exact h r (List.mem_of_mem_filter hr)

theorem sumAt_zero_of_not_hasKey {t : Table} {k : List Cell} (m : String)
    (h : ¬ hasKeyRow t k) : sumAt t keyNames k m = 0 := by
  unfold sumAt
  have hfil : t.rows.filter (fun r => decide (keyCells t.cols r keyNames = k)) = [] := by
    rw [List.filter_eq_nil_iff]
    intro r hr hk
    exact h ⟨r, hr, of_decide_eq_true hk⟩
  rw [hfil]
  rfl

theorem hasKeyRow_of_mem_tableKeys {t : Table} {k : List Cell}
    (h : k ∈ tableKeys t keyNames) : hasKeyRow t k := by
  obtain ⟨⟨r, hr, rfl⟩, _⟩ := mem_tableKeys.mp h
  exact ⟨r, hr, rfl⟩

theorem mem_tableKeys_of_hasKey {t : Table} {k : List Cell}
    (hnn : Cell.null ∉ k) (h : hasKeyRow t k) : k ∈ tableKeys t keyNames :=
  mem_tableKeys.mpr ⟨h, hnn⟩

theorem qsum_three (x y z : ℚ) : qsum [x, y, z] = x + y + z := by
  rw [qsum_eq]
  simp [add_assoc]

theorem any_congr_mem {α : Type} {l : List α} {p q : α → Bool}
    (h : ∀ a ∈ l, p a = q a) : l.any p = l.any q := by
  induction l with
  | nil => rfl
  | cons a as ih =>
    rw [List.any_cons, List.any_cons, h a (List.mem_cons_self _ _),
      ih (fun x hx => h x (List.mem_cons_of_mem _ hx))]

/- ### Outer-merge characterization -/

theorem mergeOuter_eq (ks r1 r2 : List String) (K1 K2 : List (List Cell))
    (f1 f2 : List Cell → List Cell)
    (hlen1 : ∀ k ∈ K1, k.length = ks.length)
    (hlen2 : ∀ k ∈ K2, k.length = ks.length)
    (hnd2 : K2.Nodup) :
    mergeOuter ⟨ks ++ r1, K1.map (fun k => k ++ f1 k)⟩
        ⟨ks ++ r2, K2.map (fun k => k ++ f2 k)⟩ ks =
      some ⟨ks ++ r1 ++ r2,
        K1.map (fun k => k ++ (f1 k ++
          (if k ∈ K2 then f2 k else List.replicate r2.length Cell.null))) ++
        (K2.filter (fun k => decide (k ∉ K1))).map
          (fun k => k ++ (List.replicate r1.length Cell.null ++ f2 k))⟩ := by
  have hA : (K1.map (fun k => k ++ f1 k)).flatMap
      (fun ra => match (K2.map (fun k => k ++ f2 k)).filter
          (fun rb => decide (rb.take ks.length = ra.take ks.length)) with
        | [] => [ra ++ List.replicate ((ks ++ r2).length - ks.length) Cell.null]
        | ms => ms.map (fun rb => ra ++ rb.drop ks.length)) =
      K1.map (fun k => k ++ (f1 k ++ (if k ∈ K2 then f2 k
        else List.replicate r2.length Cell.null))) := by
    rw [flatMap_map_comp]
    refine flatMap_eq_map_of_single (fun k hk => ?_)
    have htk : (k ++ f1 k).take ks.length = k := List.take_left' (hlen1 k hk)
    have hfil : (K2.map (fun k0 => k0 ++ f2 k0)).filter
        (fun rb => decide (rb.take ks.length = (k ++ f1 k).take ks.length)) =
        if k ∈ K2 then [k ++ f2 k] else [] := by
      rw [List.filter_map]
      have hcong : K2.filter ((fun rb =>
          decide (rb.take ks.length = (k ++ f1 k).take ks.length)) ∘
            (fun k0 => k0 ++ f2 k0)) = K2.filter (fun k0 => decide (k0 = k)) := by
        refine List.filter_congr (fun k0 hk0 => ?_)
        simp only [Function.comp]
        rw [List.take_left' (hlen2 k0 hk0), htk]
      rw [hcong, filter_eq_of_nodup hnd2 k]
      by_cases hk2 : k ∈ K2
      · rw [if_pos hk2, if_pos hk2]
        rfl
      · rw [if_neg hk2, if_neg hk2]
        rfl
    rw [hfil]
    by_cases hk2 : k ∈ K2
    · rw [if_pos hk2, if_pos hk2]
      show [(k ++ f1 k) ++ (k ++ f2 k).drop ks.length] = _
      rw [List.drop_left' (hlen2 k hk2), List.append_assoc]
    · rw [if_neg hk2, if_neg hk2]
      show [(k ++ f1 k) ++
        List.replicate ((ks ++ r2).length - ks.length) Cell.null] = _
      have hrep : (ks ++ r2).length - ks.length = r2.length := by simp
      rw [hrep, List.append_assoc]
  have hB : ((K2.map (fun k0 => k0 ++ f2 k0)).filter (fun rb =>
      !((K1.map (fun k0 => k0 ++ f1 k0)).any (fun ra =>
        decide (ra.take ks.length = rb.take ks.length))))).map
      (fun rb => rb.take ks.length ++
        List.replicate ((ks ++ r1).length - ks.length) Cell.null ++
        rb.drop ks.length) =
      (K2.filter (fun k => decide (k ∉ K1))).map
        (fun k => k ++ (List.replicate r1.length Cell.null ++ f2 k)) := by
    rw [List.filter_map]
    have hcong : K2.filter ((fun rb =>
        !((K1.map (fun k0 => k0 ++ f1 k0)).any (fun ra =>
          decide (ra.take ks.length = rb.take ks.length)))) ∘
            (fun k0 => k0 ++ f2 k0)) =
        K2.filter (fun k0 => decide (k0 ∉ K1)) := by
      refine List.filter_congr (fun k0 hk0 => ?_)
      simp only [Function.comp]
      rw [List.take_left' (hlen2 k0 hk0)]
      have hany : (K1.map (fun k => k ++ f1 k)).any (fun ra =>
          decide (ra.take ks.length = k0)) = decide (k0 ∈ K1) := by
        rw [List.any_map]
        have hc2 : K1.any ((fun ra => decide (ra.take ks.length = k0)) ∘
            (fun k => k ++ f1 k)) = K1.any (fun k => decide (k = k0)) := by
          refine any_congr_mem (fun k hk => ?_)
          simp only [Function.comp]
          rw [List.take_left' (hlen1 k hk)]
        rw [hc2, any_eq_decide_mem]
        exact decide_eq_decide.mpr Iff.rfl
      rw [hany, decide_not]
    rw [hcong, List.map_map]
    refine List.map_congr_left (fun k0 hk0 => ?_)
    simp only [Function.comp]
    have hk2 : k0 ∈ K2 := List.mem_of_mem_filter hk0
    have hrep : (ks ++ r1).length - ks.length = r1.length := by simp
    rw [List.take_left' (hlen2 k0 hk2), List.drop_left' (hlen2 k0 hk2), hrep,
      List.append_assoc]
  unfold mergeOuter
  simp only
  rw [if_pos ⟨List.take_left ks r1, List.take_left ks r2⟩]
  refine congrArg some ?_
  congr 1
  · rw [List.drop_left]
  · exact congrArg₂ (· ++ ·) hA hB

theorem fillZero_num (q : ℚ) : fillZero (Cell.num q) = Cell.num q := by
  unfold fillZero
  rw [if_neg]
  exact fun h => Cell.noConfusion h

theorem fillZero_null : fillZero Cell.null = Cell.num 0 := rfl

/- ### Grand-total characterization (app.py line 141) -/

theorem addGrandTotal_eq (U : List (List Cell)) (e d b : List Cell → ℚ)
    (hlU : ∀ k ∈ U, k.length = keyNames.length)
    (hde : ∀ k, (e k).den = 1) (hdd : ∀ k, (d k).den = 1)
    (hdb : ∀ k, (b k).den = 1) :
    addGrandTotal ⟨keyNames ++ ["enrol", "demo", "bio"],
        U.map (fun k => k ++ [Cell.num (e k), Cell.num (d k), Cell.num (b k)])⟩
      ["enrol", "demo", "bio"] "total" =
    some ⟨keyNames ++ ["enrol", "demo", "bio", "total"],
      U.map (fun k => k ++ [Cell.num (e k), Cell.num (d k), Cell.num (b k),
        Cell.num (e k + d k + b k)])⟩ := by
  have hnone : colIdx (keyNames ++ ["enrol", "demo", "bio"]) "total" = none := by
    decide
  simp only [addGrandTotal]
  rw [if_pos (by decide)]
  refine congrArg some ?_
  simp only [setCol, hnone]
  refine congrArg₂ Table.mk (by decide) ?_
  rw [zipWith_self_map, List.map_map]
  refine List.map_congr_left (fun k hk => ?_)
  have h5 : k.length = 5 := by rw [hlU k hk]; rfl
  simp only [Function.comp]
  have hg1 : getCell (keyNames ++ ["enrol", "demo", "bio"])
      (k ++ [Cell.num (e k), Cell.num (d k), Cell.num (b k)]) "enrol" =
      Cell.num (e k) := by
    rw [getCell_some _ (by decide : colIdx (keyNames ++ ["enrol", "demo", "bio"])
      "enrol" = some 5)]
    rw [getD_append_right _ _ _ (by omega), h5]
    rfl
  have hg2 : getCell (keyNames ++ ["enrol", "demo", "bio"])
      (k ++ [Cell.num (e k), Cell.num (d k), Cell.num (b k)]) "demo" =
      Cell.num (d k) := by
    rw [getCell_some _ (by decide : colIdx (keyNames ++ ["enrol", "demo", "bio"])
      "demo" = some 6)]
    rw [getD_append_right _ _ _ (by omega), h5]
    rfl
  have hg3 : getCell (keyNames ++ ["enrol", "demo", "bio"])
      (k ++ [Cell.num (e k), Cell.num (d k), Cell.num (b k)]) "bio" =
      Cell.num (b k) := by
    rw [getCell_some _ (by decide : colIdx (keyNames ++ ["enrol", "demo", "bio"])
      "bio" = some 7)]
    rw [getD_append_right _ _ _ (by omega), h5]
    rfl
  simp only [List.map_cons, List.map_nil]
  rw [hg1, hg2, hg3]
  simp only [cellNum]
  rw [qsum_three,
    intCell_truncQ_of_den_one (den_one_add (den_one_add (hde k) (hdd k)) (hdb k)),
    List.append_assoc]
  rfl

/- ### The full merge-fill-total chain of the combined view -/

theorem combinedChain_eq (K1 K2 K3 : List (List Cell)) (e d b : List Cell → ℚ)
    (hl1 : ∀ k ∈ K1, k.length = keyNames.length)
    (hl2 : ∀ k ∈ K2, k.length = keyNames.length)
    (hl3 : ∀ k ∈ K3, k.length = keyNames.length)
    (hnd2 : K2.Nodup) (hnd3 : K3.Nodup)
    (hnn1 : ∀ k ∈ K1, Cell.null ∉ k) (hnn2 : ∀ k ∈ K2, Cell.null ∉ k)
    (hnn3 : ∀ k ∈ K3, Cell.null ∉ k)
    (hde : ∀ k, (e k).den = 1) (hdd : ∀ k, (d k).den = 1)
    (hdb : ∀ k, (b k).den = 1)
    (he0 : ∀ k, Cell.null ∉ k → k ∉ K1 → e k = 0)
    (hd0 : ∀ k, Cell.null ∉ k → k ∉ K2 → d k = 0)
    (hb0 : ∀ k, Cell.null ∉ k → k ∉ K3 → b k = 0) :
    (do
      let m1 ← mergeOuter
        ⟨keyNames ++ ["enrol"], K1.map (fun k => k ++ [Cell.num (e k)])⟩
        ⟨keyNames ++ ["demo"], K2.map (fun k => k ++ [Cell.num (d k)])⟩ keyNames
      let m2 ← mergeOuter m1
        ⟨keyNames ++ ["bio"], K3.map (fun k => k ++ [Cell.num (b k)])⟩ keyNames
      addGrandTotal (fillTable m2) ["enrol", "demo", "bio"] "total") =
    some ⟨keyNames ++ ["enrol", "demo", "bio", "total"],
      ((K1 ++ K2.filter (fun k => decide (k ∉ K1))) ++
        K3.filter (fun k => decide
          (k ∉ K1 ++ K2.filter (fun k => decide (k ∉ K1))))).map
        (fun k => k ++ [Cell.num (e k), Cell.num (d k), Cell.num (b k),
          Cell.num (e k + d k + b k)])⟩ := by
  have hme1 : mergeOuter
      ⟨keyNames ++ ["enrol"], K1.map (fun k => k ++ [Cell.num (e k)])⟩
      ⟨keyNames ++ ["demo"], K2.map (fun k => k ++ [Cell.num (d k)])⟩ keyNames =
      some ⟨keyNames ++ ["enrol"] ++ ["demo"],
        K1.map (fun k => k ++ ([Cell.num (e k)] ++
          (if k ∈ K2 then [Cell.num (d k)] else [Cell.null]))) ++
        (K2.filter (fun k => decide (k ∉ K1))).map
          (fun k => k ++ ([Cell.null] ++ [Cell.num (d k)]))⟩ :=
    mergeOuter_eq keyNames ["enrol"] ["demo"] K1 K2
      (fun k => [Cell.num (e k)]) (fun k => [Cell.num (d k)]) hl1 hl2 hnd2
  have hrows1 : K1.map (fun k => k ++ ([Cell.num (e k)] ++
        (if k ∈ K2 then [Cell.num (d k)] else [Cell.null]))) ++
      (K2.filter (fun k => decide (k ∉ K1))).map
        (fun k => k ++ ([Cell.null] ++ [Cell.num (d k)])) =
      (K1 ++ K2.filter (fun k => decide (k ∉ K1))).map (fun k => k ++
        (if k ∈ K1 then [Cell.num (e k)] ++
            (if k ∈ K2 then [Cell.num (d k)] else [Cell.null])
          else [Cell.null] ++ [Cell.num (d k)])) := by
    rw [List.map_append]
    refine congrArg₂ (· ++ ·) ?_ ?_
    · refine List.map_congr_left (fun k hk => ?_)
      rw [if_pos hk]
    · refine List.map_congr_left (fun k hk => ?_)
      have hdk := List.of_mem_filter hk
      have hk1 : k ∉ K1 := of_decide_eq_true hdk
      rw [if_neg hk1]
  have hl12 : ∀ k ∈ K1 ++ K2.filter (fun k => decide (k ∉ K1)),
      k.length = keyNames.length := by
    intro k hk
    rcases List.mem_append.mp hk with h1 | h1
    · exact hl1 k h1
    · exact hl2 k (List.mem_of_mem_filter h1)
  have hme2 : mergeOuter
      ⟨keyNames ++ ["enrol"] ++ ["demo"],
        (K1 ++ K2.filter (fun k => decide (k ∉ K1))).map (fun k => k ++
          (if k ∈ K1 then [Cell.num (e k)] ++
              (if k ∈ K2 then [Cell.num (d k)] else [Cell.null])
            else [Cell.null] ++ [Cell.num (d k)]))⟩
      ⟨keyNames ++ ["bio"], K3.map (fun k => k ++ [Cell.num (b k)])⟩ keyNames =
      some ⟨keyNames ++ ["enrol"] ++ ["demo"] ++ ["bio"],
        (K1 ++ K2.filter (fun k => decide (k ∉ K1))).map (fun k => k ++
          ((if k ∈ K1 then [Cell.num (e k)] ++
              (if k ∈ K2 then [Cell.num (d k)] else [Cell.null])
            else [Cell.null] ++ [Cell.num (d k)]) ++
           (if k ∈ K3 then [Cell.num (b k)] else [Cell.null]))) ++
        (K3.filter (fun k => decide
            (k ∉ K1 ++ K2.filter (fun k => decide (k ∉ K1))))).map
          (fun k => k ++ ([Cell.null, Cell.null] ++ [Cell.num (b k)]))⟩ :=
    mergeOuter_eq keyNames ["enrol", "demo"] ["bio"]
      (K1 ++ K2.filter (fun k => decide (k ∉ K1))) K3
      (fun k => if k ∈ K1 then [Cell.num (e k)] ++
          (if k ∈ K2 then [Cell.num (d k)] else [Cell.null])
        else [Cell.null] ++ [Cell.num (d k)])
      (fun k => [Cell.num (b k)]) hl12 hl3 hnd3
  have hrows2 : (K1 ++ K2.filter (fun k => decide (k ∉ K1))).map (fun k => k ++
        ((if k ∈ K1 then [Cell.num (e k)] ++
            (if k ∈ K2 then [Cell.num (d k)] else [Cell.null])
          else [Cell.null] ++ [Cell.num (d k)]) ++
         (if k ∈ K3 then [Cell.num (b k)] else [Cell.null]))) ++
      (K3.filter (fun k => decide
          (k ∉ K1 ++ K2.filter (fun k => decide (k ∉ K1))))).map
        (fun k => k ++ ([Cell.null, Cell.null] ++ [Cell.num (b k)])) =
      ((K1 ++ K2.filter (fun k => decide (k ∉ K1))) ++
        K3.filter (fun k => decide
          (k ∉ K1 ++ K2.filter (fun k => decide (k ∉ K1))))).map (fun k => k ++
        (if k ∈ K1 ++ K2.filter (fun k => decide (k ∉ K1)) then
          (if k ∈ K1 then [Cell.num (e k)] ++
              (if k ∈ K2 then [Cell.num (d k)] else [Cell.null])
            else [Cell.null] ++ [Cell.num (d k)]) ++
          (if k ∈ K3 then [Cell.num (b k)] else [Cell.null])
        else [Cell.null, Cell.null] ++ [Cell.num (b k)])) := by
    conv_rhs => rw [List.map_append]
    refine congrArg₂ (· ++ ·) ?_ ?_
    · refine List.map_congr_left (fun k hk => ?_)
      rw [if_pos hk]
    · refine List.map_congr_left (fun k hk => ?_)
      have hdk := List.of_mem_filter hk
      have hk12 : k ∉ K1 ++ K2.filter (fun k => decide (k ∉ K1)) :=
        of_decide_eq_true hdk
      rw [if_neg hk12]
  have hfill : fillTable ⟨keyNames ++ ["enrol"] ++ ["demo"] ++ ["bio"],
      ((K1 ++ K2.filter (fun k => decide (k ∉ K1))) ++
        K3.filter (fun k => decide
          (k ∉ K1 ++ K2.filter (fun k => decide (k ∉ K1))))).map (fun k => k ++
        (if k ∈ K1 ++ K2.filter (fun k => decide (k ∉ K1)) then
          (if k ∈ K1 then [Cell.num (e k)] ++
              (if k ∈ K2 then [Cell.num (d k)] else [Cell.null])
            else [Cell.null] ++ [Cell.num (d k)]) ++
          (if k ∈ K3 then [Cell.num (b k)] else [Cell.null])
        else [Cell.null, Cell.null] ++ [Cell.num (b k)]))⟩ =
      ⟨keyNames ++ ["enrol"] ++ ["demo"] ++ ["bio"],
        ((K1 ++ K2.filter (fun k => decide (k ∉ K1))) ++
          K3.filter (fun k => decide
            (k ∉ K1 ++ K2.filter (fun k => decide (k ∉ K1))))).map
          (fun k => k ++
            [Cell.num (e k), Cell.num (d k), Cell.num (b k)])⟩ := by
    unfold fillTable
    refine congrArg (Table.mk _) ?_
    rw [List.map_map]
    refine List.map_congr_left (fun k hk => ?_)
    have hnnk : Cell.null ∉ k := by
      rcases List.mem_append.mp hk with h1 | h1
      · rcases List.mem_append.mp h1 with h2 | h2
        · exact hnn1 k h2
        · exact hnn2 k (List.mem_of_mem_filter h2)
      · exact hnn3 k (List.mem_of_mem_filter h1)
    simp only [Function.comp]
    rw [List.map_append, fillRow_nonnull hnnk]
    refine congrArg (fun x => k ++ x) ?_
    by_cases h12 : k ∈ K1 ++ K2.filter (fun k => decide (k ∉ K1))
    · rw [if_pos h12]
      by_cases hk1 : k ∈ K1
      · rw [if_pos hk1]
        by_cases hk2 : k ∈ K2
        · rw [if_pos hk2]
          by_cases hk3 : k ∈ K3
          · rw [if_pos hk3]
            simp [fillZero_num]
          · rw [if_neg hk3, hb0 k hnnk hk3]
            simp [fillZero_num, fillZero_null]
        · rw [if_neg hk2, hd0 k hnnk hk2]
          by_cases hk3 : k ∈ K3
          · rw [if_pos hk3]
            simp [fillZero_num, fillZero_null]
          · rw [if_neg hk3, hb0 k hnnk hk3]
            simp [fillZero_num, fillZero_null]
      · rw [if_neg hk1, he0 k hnnk hk1]
        by_cases hk3 : k ∈ K3
        · rw [if_pos hk3]
          simp [fillZero_num, fillZero_null]
        · rw [if_neg hk3, hb0 k hnnk hk3]
          simp [fillZero_num, fillZero_null]
    · rw [if_neg h12]
      have hk1 : k ∉ K1 := fun hh => h12 (List.mem_append.mpr (Or.inl hh))
      have hk2 : k ∉ K2 := fun hh => h12 (List.mem_append.mpr (Or.inr
        (List.mem_filter.mpr ⟨hh, decide_eq_true hk1⟩)))
      rw [he0 k hnnk hk1, hd0 k hnnk hk2]
      simp [fillZero_num, fillZero_null]
  have hlU : ∀ k ∈ (K1 ++ K2.filter (fun k => decide (k ∉ K1))) ++
      K3.filter (fun k => decide
        (k ∉ K1 ++ K2.filter (fun k => decide (k ∉ K1)))),
      k.length = keyNames.length := by
    intro k hk
    rcases List.mem_append.mp hk with h1 | h1
    · exact hl12 k h1
    · exact hl3 k (List.mem_of_mem_filter h1)
  rw [hme1]
  simp only [Option.bind_eq_bind, Option.some_bind]
  rw [hrows1, hme2]
  simp only [Option.bind_eq_bind, Option.some_bind]
  rw [hrows2, hfill]
  exact addGrandTotal_eq _ e d b hlU hde hdd hdb

/- ### The combined aggregation in closed form -/

theorem combinedAgg_eq (enr dem bio : Table)
    (hkE : ∀ c ∈ keyNames, c ∈ enr.cols) (hkD : ∀ c ∈ keyNames, c ∈ dem.cols)
    (hkB : ∀ c ∈ keyNames, c ∈ bio.cols)
    (hmE : "enrol" ∈ enr.cols) (hmD : "demo" ∈ dem.cols)
    (hmB : "bio" ∈ bio.cols)
    (hiE : ∀ r ∈ enr.rows, (cellNum (getCell enr.cols r "enrol")).den = 1)
    (hiD : ∀ r ∈ dem.rows, (cellNum (getCell dem.cols r "demo")).den = 1)
    (hiB : ∀ r ∈ bio.rows, (cellNum (getCell bio.cols r "bio")).den = 1) :
    combinedAgg enr dem bio =
      some ⟨keyNames ++ ["enrol", "demo", "bio", "total"],
        (unionKeys enr dem bio).map (fun k => k ++ catSums enr dem bio k)⟩ := by
  unfold combinedAgg
  rw [groupbySum_eq hkE hmE, groupbySum_eq hkD hmD, groupbySum_eq hkB hmB]
  simp only [Option.bind_eq_bind, Option.some_bind]
  exact combinedChain_eq (tableKeys enr keyNames) (tableKeys dem keyNames)
    (tableKeys bio keyNames)
    (fun k => sumAt enr keyNames k "enrol")
    (fun k => sumAt dem keyNames k "demo")
    (fun k => sumAt bio keyNames k "bio")
    (fun k hk => tableKeys_key_length hk)
    (fun k hk => tableKeys_key_length hk)
    (fun k hk => tableKeys_key_length hk)
    (tableKeys_nodup _ _) (tableKeys_nodup _ _)
    (fun k hk => tableKeys_nonnull hk)
    (fun k hk => tableKeys_nonnull hk)
    (fun k hk => tableKeys_nonnull hk)
    (fun k => sumAt_den_one hiE k)
    (fun k => sumAt_den_one hiD k)
    (fun k => sumAt_den_one hiB k)
    (fun k hnn hk => sumAt_eq_zero _ hnn hk)
    (fun k hnn hk => sumAt_eq_zero _ hnn hk)
    (fun k hnn hk => sumAt_eq_zero _ hnn hk)

/- ### Claim C1 -/

/-- C1 (amended): when the three category tables carry the key columns and
integral metric columns, the combined aggregation (per-category groupby,
two outer merges, fillna(0) and the grand total, app.py lines 134-141)
succeeds and its output has exactly one row for every composite key in the
union of the three categories' fully non-null key sets — no such key lost
or duplicated — with each row carrying the three per-category sums, zero
for a category lacking that key, and a grand total equal to
enrol + demo + bio; keys with a null field are dropped by the per-category
grouping and get no output row, contrary to the claim's "including keys
whose fields are null". -/
theorem combined_join_complete (enr dem bio : Table)
    (hkE : ∀ c ∈ keyNames, c ∈ enr.cols) (hkD : ∀ c ∈ keyNames, c ∈ dem.cols)
    (hkB : ∀ c ∈ keyNames, c ∈ bio.cols)
    (hmE : "enrol" ∈ enr.cols) (hmD : "demo" ∈ dem.cols)
    (hmB : "bio" ∈ bio.cols)
    (hiE : ∀ r ∈ enr.rows, (cellNum (getCell enr.cols r "enrol")).den = 1)
    (hiD : ∀ r ∈ dem.rows, (cellNum (getCell dem.cols r "demo")).den = 1)
    (hiB : ∀ r ∈ bio.rows, (cellNum (getCell bio.cols r "bio")).den = 1) :
    ∃ out, combinedAgg enr dem bio = some out ∧
      (unionKeys enr dem bio).Nodup ∧
      (∀ k : List Cell, k ∈ unionKeys enr dem bio ↔ Cell.null ∉ k ∧
        (hasKeyRow enr k ∨ hasKeyRow dem k ∨ hasKeyRow bio k)) ∧
      out.cols = keyNames ++ ["enrol", "demo", "bio", "total"] ∧
      out.rows = (unionKeys enr dem bio).map (fun k =>
        k ++ [Cell.num (sumAt enr keyNames k "enrol"),
          Cell.num (sumAt dem keyNames k "demo"),
          Cell.num (sumAt bio keyNames k "bio"),
          Cell.num (sumAt enr keyNames k "enrol" +
            sumAt dem keyNames k "demo" + sumAt bio keyNames k "bio")]) ∧
      (∀ k : List Cell, out.rows.countP
          (fun r => decide (r.take keyNames.length = k)) =
        if k ∈ unionKeys enr dem bio then 1 else 0) ∧
      (∀ k : List Cell, ¬ hasKeyRow enr k → sumAt enr keyNames k "enrol" = 0) ∧
      (∀ k : List Cell, ¬ hasKeyRow dem k → sumAt dem keyNames k "demo" = 0) ∧
      (∀ k : List Cell, ¬ hasKeyRow bio k → sumAt bio keyNames k "bio" = 0) := by
  have hndU : (unionKeys enr dem bio).Nodup := by
    unfold unionKeys
    refine List.Nodup.append (List.Nodup.append (tableKeys_nodup _ _)
        (List.Nodup.filter _ (tableKeys_nodup _ _)) ?_)
      (List.Nodup.filter _ (tableKeys_nodup _ _)) ?_
    · intro a ha hb
      have hdb0 := List.of_mem_filter hb
      exact of_decide_eq_true hdb0 ha
    · intro a ha hb
      have hdb0 := List.of_mem_filter hb
      exact of_decide_eq_true hdb0 ha
  have hmemU : ∀ k : List Cell, k ∈ unionKeys enr dem bio ↔ Cell.null ∉ k ∧
      (hasKeyRow enr k ∨ hasKeyRow dem k ∨ hasKeyRow bio k) := by
    intro k
    unfold unionKeys
    constructor
    · intro hk
      rcases List.mem_append.mp hk with h1 | h1
      · rcases List.mem_append.mp h1 with h2 | h2
        · exact ⟨tableKeys_nonnull h2, Or.inl (hasKeyRow_of_mem_tableKeys h2)⟩
        · have h3 := List.mem_of_mem_filter h2
          exact ⟨tableKeys_nonnull h3,
            Or.inr (Or.inl (hasKeyRow_of_mem_tableKeys h3))⟩
      · have h3 := List.mem_of_mem_filter h1
        exact ⟨tableKeys_nonnull h3,
          Or.inr (Or.inr (hasKeyRow_of_mem_tableKeys h3))⟩
    · rintro ⟨hnn, hor⟩
      by_cases h1 : k ∈ tableKeys enr keyNames
      · exact List.mem_append.mpr (Or.inl (List.mem_append.mpr (Or.inl h1)))
      · by_cases h2 : k ∈ tableKeys dem keyNames
        · refine List.mem_append.mpr (Or.inl (List.mem_append.mpr (Or.inr ?_)))
          exact List.mem_filter.mpr ⟨h2, decide_eq_true h1⟩
        · have h12 : k ∉ tableKeys enr keyNames ++
              (tableKeys dem keyNames).filter
                (fun k => decide (k ∉ tableKeys enr keyNames)) := by
            intro hmem
            rcases List.mem_append.mp hmem with ha | ha
            · exact h1 ha
            · exact h2 (List.mem_of_mem_filter ha)
          have h3 : k ∈ tableKeys bio keyNames := by
            rcases hor with h | h | h
            · exact absurd (mem_tableKeys_of_hasKey hnn h) h1
            · exact absurd (mem_tableKeys_of_hasKey hnn h) h2
            · exact mem_tableKeys_of_hasKey hnn h
          exact List.mem_append.mpr (Or.inr
            (List.mem_filter.mpr ⟨h3, decide_eq_true h12⟩))
  have hlenU : ∀ k ∈ unionKeys enr dem bio, k.length = keyNames.length := by
    intro k hk
    rcases (hmemU k).mp hk with ⟨_, h | h | h⟩ <;>
      · obtain ⟨r, _, rfl⟩ := h
        exact keyCells_length _ _ _
  refine ⟨_, combinedAgg_eq enr dem bio hkE hkD hkB hmE hmD hmB hiE hiD hiB,
    hndU, hmemU, rfl, rfl, ?_, fun k h => sumAt_zero_of_not_hasKey _ h,
    fun k h => sumAt_zero_of_not_hasKey _ h,
    fun k h => sumAt_zero_of_not_hasKey _ h⟩
  intro k
  exact countP_key_of_nodup_map (catSums enr dem bio) hlenU hndU k

/-- C1 witness: one enrolment row with metric 6 and one demographic row
with metric 4 under the same fully non-null key, and no biometric rows:
the combined output is the single row for that key with enrol 6, demo 4,
bio 0 and total 10, and the theorem's conclusions hold at these tables. -/
theorem combined_join_complete_spot :
    (∀ c ∈ keyNames, c ∈ keyEnrT.cols) ∧
    combinedAgg keyEnrT keyDemT emptyBioT =
      some ⟨keyNames ++ ["enrol", "demo", "bio", "total"],
        [[Cell.date 2024 1 1, Cell.str "X", Cell.str "A", Cell.str "110001",
          Cell.str "2024-01", Cell.num (mkRat 6 1), Cell.num (mkRat 4 1),
          Cell.num 0, Cell.num (mkRat 10 1)]]⟩ ∧
    (∃ out, combinedAgg keyEnrT keyDemT emptyBioT = some out ∧
      (unionKeys keyEnrT keyDemT emptyBioT).Nodup ∧
      (∀ k : List Cell, k ∈ unionKeys keyEnrT keyDemT emptyBioT ↔
        Cell.null ∉ k ∧ (hasKeyRow keyEnrT k ∨ hasKeyRow keyDemT k ∨
          hasKeyRow emptyBioT k)) ∧
      out.cols = keyNames ++ ["enrol", "demo", "bio", "total"] ∧
      out.rows = (unionKeys keyEnrT keyDemT emptyBioT).map (fun k =>
        k ++ [Cell.num (sumAt keyEnrT keyNames k "enrol"),
          Cell.num (sumAt keyDemT keyNames k "demo"),
          Cell.num (sumAt emptyBioT keyNames k "bio"),
          Cell.num (sumAt keyEnrT keyNames k "enrol" +
            sumAt keyDemT keyNames k "demo" +
            sumAt emptyBioT keyNames k "bio")]) ∧
      (∀ k : List Cell, out.rows.countP
          (fun r => decide (r.take keyNames.length = k)) =
        if k ∈ unionKeys keyEnrT keyDemT emptyBioT then 1 else 0) ∧
      (∀ k : List Cell, ¬ hasKeyRow keyEnrT k →
        sumAt keyEnrT keyNames k "enrol" = 0) ∧
      (∀ k : List Cell, ¬ hasKeyRow keyDemT k →
        sumAt keyDemT keyNames k "demo" = 0) ∧
      (∀ k : List Cell, ¬ hasKeyRow emptyBioT k →
        sumAt emptyBioT keyNames k "bio" = 0)) :=
  ⟨by decide, by decide,
    combined_join_complete keyEnrT keyDemT emptyBioT (by decide) (by decide)
      (by decide) (by decide) (by decide) (by decide) (by decide) (by decide)
      (by decide)⟩

/-- C1 counterexample: a composite key whose date field is null is carried
by the only enrolment row, yet the combined output has no row at all — the
key is lost by the per-category grouping, refuting "including keys whose
fields are null" and the union row-count guarantee for such keys. -/
theorem combined_null_key_lost :
    nullKeyEnrT.rows.length = 1 ∧
    keyCells nullKeyEnrT.cols (nullKeyEnrT.rows.getD 0 []) keyNames =
      [Cell.null, Cell.str "X", Cell.str "A", Cell.str "1", Cell.str "NaT"] ∧
    combinedAgg nullKeyEnrT emptyDemT emptyBioT =
      some ⟨keyNames ++ ["enrol", "demo", "bio", "total"], []⟩ := by decide

end Uidai
